import Mathlib

/-!
# Hook chain dispatch, tagged hooks and the application lifecycle

A verification development for the hook engine (`hook_event.go`,
`hook_tagged.go`, with `hook_test.go` and `hook_tagged_test.go`) and the
lifecycle orchestrator (`app.go`).

## The embedding

* A handler is a Go closure `func(e T) error` that may change shared state
  and call `e.Next()`.  It is embedded as a function from the event payload
  `ε` to a program `Prog σ`, the tree of the steps its body takes over a
  world `σ`: return, call `e.Next()` and go on with its result, read the
  world, write the world, or never come back (`syscall.Exec`).
* The payload `ε` holds what identifies the event (its tags); the exported
  fields of the lifecycle events, which handlers can write (`Logger`,
  `Options`, `Ctx`, `IsRestart`), live in the world.
* `Event.next`, the one field of `Event`, holds the continuation `Trigger`
  installs: the links of the chain that are left; `nil` is `[]`.
* `Event.Next` calls handlers that call `Event.Next`; the recursion is
  bounded by a nesting depth.  `Event.Next_advances` shows that the depth a
  `Trigger` call starts with is always enough, and `Event.Next_fuel` that any
  larger one gives the same result.
* `State.trace` is a ghost record of the links invoked; `State.failures` is
  the record of the failures the links returned.
* `hook.go` (`Handler`, `Hook`, `Bind`, `BindFunc`, `Unbind`, `Trigger`) is
  not among the source files; these definitions follow the specification and
  say so.
* Conditions on what a handler does are conditions on the run at hand:
  `Prog.toNext` follows a body from the world it is entered in, and
  `entryWorld` follows a chain from the world a `Trigger` call starts in.

The definitions come first, the theorems after them.
-/

namespace App

/-- Go error values: none is nil. -/
abbrev Err := Option String

/-- The body of a handler, a Go closure of type func(e T) error, as the tree
of its steps: ret err is a return statement; next k is a call r := e.Next()
followed by k r; get k reads the shared state; set w k writes it; halt is a
step control never comes back from (the process image is replaced, or the
call panics on a nil pointer). -/
inductive Prog (σ : Type) where
  | ret : Err → Prog σ
  | next : (Err → Prog σ) → Prog σ
  | get : (σ → Prog σ) → Prog σ
  | set : σ → Prog σ → Prog σ
  | halt : Prog σ

/-- The statement return e.Next(). -/
def Prog.returnNext {σ : Type} : Prog σ := Prog.next Prog.ret

/-- Identity of a link of a dispatch chain: a registered handler, by ID, or
the i-th one-off function passed to Trigger. -/
inductive LinkTag where
  | handler (id : String)
  | oneOff (i : Nat)
  deriving DecidableEq, Repr

/-- One link of a dispatch chain: a handler body already applied to the
event, with its identity. -/
structure Link (σ : Type) where
  tag : LinkTag
  body : Prog σ

/-- The struct Event of hook_event.go, whose only field is next, a
func() error.  The functions stored in next are the continuations Trigger
installs; such a function is represented by the list of the links it still
has to run, first the link it invokes, and the nil function by the empty
list. -/
structure Event (σ : Type) where
  next : List (Link σ)

/-- The state a chain runs in: the event, the shared world the handlers
mutate, a ghost record of the links invoked so far, oldest first, and the
record of the failures the links have returned so far, oldest first, each
with the link that returned it. -/
structure State (σ : Type) where
  event : Event σ
  world : σ
  trace : List LinkTag
  failures : List (LinkTag × String) := []

/-- How a call ends: it returns an error value, or control never returns. -/
inductive Outcome (σ : Type) where
  | returned (err : Err) (st : State σ)
  | halted (st : State σ)

/-- The state a call ends in. -/
def Outcome.state {σ : Type} : Outcome σ → State σ
  | .returned _ st => st
  | .halted st => st

/-- The value a call returns, if it returns. -/
def Outcome.result {σ : Type} : Outcome σ → Option Err
  | .returned err _ => some err
  | .halted _ => none

/-- The method nextFunc of Event: returns the function that Next calls. -/
def Event.nextFunc {σ : Type} (e : Event σ) : List (Link σ) := e.next

/-- The method setNextFunc of Event: sets the function that Next calls. -/
def Event.setNextFunc {σ : Type} (_e : Event σ) (f : List (Link σ)) : Event σ := { next := f }

/-- Runs a handler body; callNext is what e.Next() does.  The result is
none only when callNext gives none. -/
def Prog.exec {σ : Type} (callNext : State σ → Option (Outcome σ)) :
    Prog σ → State σ → Option (Outcome σ)
  | .ret err, st => some (.returned err st)
  | .next k, st =>
    match callNext st with
    | none => none
    | some (.halted st') => some (.halted st')
    | some (.returned r st') => (k r).exec callNext st'
  | .get k, st => (k st.world).exec callNext st
  | .set w k, st => k.exec callNext { st with world := w }
  | .halt, st => some (.halted st)

/-- The entry a link adds to the record of failures when it returns err:
none for nil. -/
def failureOf (tag : LinkTag) : Err → List (LinkTag × String)
  | none => []
  | some f => [(tag, f)]

/-- Modelled from the spec: what the continuation Trigger installs does
once the link it invoked has returned err (hook.go is not among the source
files).  Section 4.1: "if a link does not invoke it, the chain stops there
and no later link — registered or extra — runs", so the links still left
are dropped; and "the first non-nil failure encountered, from the deepest
point it was produced, is what Trigger ultimately returns", so a failure is
added to the record. -/
def State.leave {σ : Type} (st : State σ) (tag : LinkTag) (err : Err) : State σ :=
  { st with
    event := st.event.setNextFunc [],
    failures := st.failures ++ failureOf tag err }

/-- The method Next of Event (hook_event.go): if e.next != nil it is
called and its result returned, else nil is returned.  Calling the stored
continuation advances next to the links after the first one, runs that
link, and ends with State.leave.  The first argument bounds the nesting
depth of handler calls; none is returned when the bound is exhausted. -/
def Event.Next {σ : Type} : Nat → State σ → Option (Outcome σ)
  | 0, st =>
    match st.event.nextFunc with
    | [] => some (.returned none st)
    | _ :: _ => none
  | fuel + 1, st =>
    match st.event.nextFunc with
    | [] => some (.returned none st)
    | l :: old =>
      match l.body.exec (Event.Next fuel)
          { st with event := st.event.setNextFunc old, trace := st.trace ++ [l.tag] } with
      | some (.returned err st1) => some (.returned err (st1.leave l.tag err))
      | other => other

/-- The struct Handler: ID string, Priority int, Func func(T) error. -/
structure Handler (ε σ : Type) where
  ID : String
  Priority : Int
  Func : ε → Prog σ

/-- Modelled from the spec: the struct Hook is not among the source files.
Section 9: the registry is "an arena of slots addressed by generated or
caller-given unique keys"; section 3: a bind of an existing ID keeps the
"same slot".  The slots are kept in insertion order. -/
structure Hook (ε σ : Type) where
  slots : List (Handler ε σ)

/-- The order handlers are sorted by: lower priority first. -/
def Handler.le {ε σ : Type} (a b : Handler ε σ) : Prop := a.Priority ≤ b.Priority

instance Handler.decLe {ε σ : Type} :
    DecidableRel (Handler.le : Handler ε σ → Handler ε σ → Prop) :=
  fun a b => inferInstanceAs (Decidable (a.Priority ≤ b.Priority))

instance Handler.le_total {ε σ : Type} : IsTotal (Handler ε σ) Handler.le :=
  ⟨fun a b => Int.le_total a.Priority b.Priority⟩

instance Handler.le_trans {ε σ : Type} : IsTrans (Handler ε σ) Handler.le :=
  ⟨fun _ _ _ hab hbc => Int.le_trans hab hbc⟩

/-- Modelled from the spec: the ID generator of Hook.Bind is not among the
source files; section 3 says an empty ID "defaults to a generated unique
token".  The token is a run of the letter h longer than every ID in use. -/
def generateHookId (used : List String) : String :=
  String.mk (List.replicate ((used.map String.length).foldr max 0 + 1) 'h')

/-- Replaces the first handler that has the ID of x by x, in its slot; none
when there is none. -/
def replaceHandler {ε σ : Type} (x : Handler ε σ) :
    List (Handler ε σ) → Option (List (Handler ε σ))
  | [] => none
  | a :: l =>
    if a.ID = x.ID then some (x :: l) else (replaceHandler x l).map (fun t => a :: t)

/-- Modelled from the spec: the first half of Hook.Bind, which is not among
the source files.  Sections 3 and 4.1: an empty ID "defaults to a generated
unique token"; "supplying an existing ID replaces that handler in place
(same slot, new function/priority) rather than appending a duplicate".
Returns the slots before sorting and the ID of the handler. -/
def bindSlots {ε σ : Type} (slots : List (Handler ε σ)) (handler : Handler ε σ) :
    List (Handler ε σ) × String :=
  let handler : Handler ε σ :=
    if handler.ID = "" then
      { handler with ID := generateHookId (slots.map (fun a => a.ID)) }
    else handler
  match replaceHandler handler slots with
  | some replaced => (replaced, handler.ID)
  | none => (slots ++ [handler], handler.ID)

/-- Modelled from the spec: the sequence of handlers of a Hook (the field
handlers the tests read), in dispatch order.  Section 3: the "sequence is
always sorted by (Priority ascending, insertion order ascending) — ties
broken by stable original insertion order, independent of replacement";
section 4.1: "lower values run earlier; equal values preserve relative bind
order".  It is the stable sort by priority of the slots. -/
def Hook.handlers {ε σ : Type} (h : Hook ε σ) : List (Handler ε σ) :=
  h.slots.insertionSort Handler.le

/-- Modelled from the spec: Hook.Bind is not among the source files.
Section 4.1: "inserts or replaces a handler; returns its ID"; section 9:
"re-sorted on insert/priority change" (the sort is in Hook.handlers). -/
def Hook.Bind {ε σ : Type} (h : Hook ε σ) (handler : Handler ε σ) : Hook ε σ × String :=
  let r := bindSlots h.slots handler
  ({ slots := r.1 }, r.2)

/-- Modelled from the spec: Hook.BindFunc is not among the source files.
Section 4.1: "convenience for Bind with Priority 0 and a generated ID". -/
def Hook.BindFunc {ε σ : Type} (h : Hook ε σ) (fn : ε → Prog σ) : Hook ε σ × String :=
  h.Bind { ID := "", Priority := 0, Func := fn }

/-- Modelled from the spec: Hook.Unbind is not among the source files.
Section 4.1: "removes matching entries; unknown IDs are silently ignored". -/
def Hook.Unbind {ε σ : Type} (h : Hook ε σ) (ids : List String) : Hook ε σ :=
  { slots := h.slots.filter (fun a => !(ids.contains a.ID)) }

/-- Modelled from the spec: Hook.UnbindAll is not among the source files.
Section 4.1: "clears the registry". -/
def Hook.UnbindAll {ε σ : Type} (_h : Hook ε σ) : Hook ε σ := { slots := [] }

/-- Modelled from the spec: Hook.Length is not among the source files.
Section 4.1: "current handler count". -/
def Hook.Length {ε σ : Type} (h : Hook ε σ) : Nat := h.handlers.length

/-- The hooks a program can build: the zero value, changed by Bind, Unbind
and UnbindAll (the fields of Hook are not exported). -/
inductive Hook.Reachable {ε σ : Type} : Hook ε σ → Prop where
  | zero : Hook.Reachable { slots := [] }
  | bind (h : Hook ε σ) (handler : Handler ε σ) :
      Hook.Reachable h → Hook.Reachable (h.Bind handler).1
  | unbind (h : Hook ε σ) (ids : List String) :
      Hook.Reachable h → Hook.Reachable (h.Unbind ids)
  | unbindAll (h : Hook ε σ) : Hook.Reachable h → Hook.Reachable h.UnbindAll

/-- The hook after a sequence of Bind calls. -/
def Hook.bindAll {ε σ : Type} (h : Hook ε σ) (binds : List (Handler ε σ)) : Hook ε σ :=
  binds.foldl (fun acc x => (acc.Bind x).1) h

/-- The one-off functions of a Trigger call as links, numbered from i. -/
def oneOffLinks {ε σ : Type} (event : ε) : Nat → List (ε → Prog σ) → List (Link σ)
  | _, [] => []
  | i, f :: fs => { tag := LinkTag.oneOff i, body := f event } :: oneOffLinks event (i + 1) fs

/-- The registered handlers as links, in the order given. -/
def handlerLinks {ε σ : Type} (event : ε) (hs : List (Handler ε σ)) : List (Link σ) :=
  hs.map (fun a => { tag := LinkTag.handler a.ID, body := a.Func event })

/-- Modelled from the spec: the chain Hook.Trigger dispatches.  Section
4.1: "builds the dispatch chain = [sorted registered handlers] followed by
extra functions in the order given". -/
def Hook.chain {ε σ : Type} (h : Hook ε σ) (event : ε) (oneOff : List (ε → Prog σ)) :
    List (Link σ) :=
  handlerLinks event h.handlers ++ oneOffLinks event 0 oneOff

/-- The state a Trigger call starts from. -/
def State.init {σ : Type} (w : σ) : State σ :=
  { event := { next := [] }, world := w, trace := [] }

/-- Modelled from the spec: Hook.Trigger is not among the source files.
Section 4.1: it builds the chain "then invokes the first link. Each link is
responsible for explicitly advancing to the next link by invoking the
event's continuation"; section 9: the source keeps a 'mutable "next"
continuation embedded in the event value'.  The continuation is installed
through setNextFunc, then event.Next() is called.  Section 4.1: "the first
non-nil failure encountered, from the deepest point it was produced, is
what Trigger ultimately returns to its caller": the value returned is the
first failure of the record, nil when there is none.  The world the
handlers share starts as w. -/
def Hook.Trigger {ε σ : Type} (h : Hook ε σ) (event : ε) (oneOff : List (ε → Prog σ)) (w : σ) :
    Option (Outcome σ) :=
  let links := h.chain event oneOff
  let st := State.init w
  match Event.Next links.length { st with event := st.event.setNextFunc links } with
  | some (.returned _ st1) => some (.returned (st1.failures.head?.map Prod.snd) st1)
  | other => other

/-- The tags of a chain, in chain order. -/
def tagsOf {σ : Type} (links : List (Link σ)) : List LinkTag := links.map (fun l => l.tag)

/-- The world in which a body, entered in the world w, makes its first call
of e.Next(); none when it ends (it returns, or control never comes back)
without having called e.Next(). -/
def Prog.toNext {σ : Type} : Prog σ → σ → Option σ
  | .ret _, _ => none
  | .next _, w => some w
  | .get k, w => (k w).toNext w
  | .set w1 k, _ => k.toNext w1
  | .halt, _ => none

/-- The world in which the link after the given links is entered, in the run
that starts in the world w: each of the given links, entered in the world
in which the one before it called e.Next(), goes on to call e.Next().  It
is none when, in that run, one of them ends without invoking its
continuation. -/
def entryWorld {σ : Type} : List (Link σ) → σ → Option σ
  | [], w => some w
  | l :: rest, w => (l.body.toNext w).bind (entryWorld rest)

/-- The body has no step that control never comes back from. -/
def Prog.NoHalt {σ : Type} : Prog σ → Prop
  | .ret _ => True
  | .next k => ∀ r, (k r).NoHalt
  | .get k => ∀ w, (k w).NoHalt
  | .set _ k => k.NoHalt
  | .halt => False

/-- The handlers in insertion order, following the spec's words (section
3): a bind of a new ID takes the next slot, a bind of an ID in use keeps the
slot of the handler it replaces.  No sorting takes place. -/
def insertionOrder {ε σ : Type} (binds : List (Handler ε σ)) : List (Handler ε σ) :=
  binds.foldl (fun slots x => (bindSlots slots x).1) []

/-- The dispatch order the spec states (section 3): "sorted by (Priority
ascending, insertion order ascending)". -/
def specDispatchOrder {ε σ : Type} (binds : List (Handler ε σ)) : List (Handler ε σ) :=
  (insertionOrder binds).insertionSort Handler.le

/-- The interface Tagger of hook_tagged.go: an event that reports tags. -/
class Tagger (ε : Type) where
  Tags : ε → List String

/-- The struct TaggedHook of hook_tagged.go: the main hook and the tags.
The main hook is shared through a pointer in the source; here a view is
taken over the current value of the main hook and Bind returns the new
value. -/
structure TaggedHook (ε σ : Type) where
  mainHook : Hook ε σ
  tags : List String

/-- The function NewTaggedHook of hook_tagged.go. -/
def NewTaggedHook {ε σ : Type} (hook : Hook ε σ) (tags : List String) : TaggedHook ε σ :=
  { mainHook := hook, tags := tags }

/-- The method CanTriggerOn of TaggedHook: true when the hook has no tags,
else whether some tag to check is among the tags of the hook (the loop over
tagsToCheck with slices.Contains). -/
def TaggedHook.CanTriggerOn {ε σ : Type} (h : TaggedHook ε σ) (tagsToCheck : List String) : Bool :=
  if h.tags.length = 0 then true
  else tagsToCheck.any (fun t => h.tags.contains t)

/-- The closure TaggedHook.Bind and TaggedHook.BindFunc register:
func(e T) error { if h.CanTriggerOn(e.Tags()) { return fn(e) }; return e.Next() }. -/
def TaggedHook.wrap {ε σ : Type} [Tagger ε] (h : TaggedHook ε σ) (fn : ε → Prog σ) : ε → Prog σ :=
  fun e => if h.CanTriggerOn (Tagger.Tags e) then fn e else Prog.returnNext

/-- The method Bind of TaggedHook: the function of the handler is wrapped,
then the handler is bound on the main hook.  Returns the main hook and the
ID. -/
def TaggedHook.Bind {ε σ : Type} [Tagger ε] (h : TaggedHook ε σ) (handler : Handler ε σ) :
    Hook ε σ × String :=
  let fn := handler.Func
  h.mainHook.Bind { handler with Func := h.wrap fn }

/-- The method BindFunc of TaggedHook: the wrapped function is bound on the
main hook with BindFunc.  Returns the main hook and the ID. -/
def TaggedHook.BindFunc {ε σ : Type} [Tagger ε] (h : TaggedHook ε σ) (fn : ε → Prog σ) :
    Hook ε σ × String :=
  h.mainHook.BindFunc (h.wrap fn)

/-- A context.Context, as far as the lifecycle builds one:
context.WithTimeout(ctx, d). -/
inductive Context where
  | background
  | withTimeout (parent : Context) (d : Int)
  deriving DecidableEq, Repr

/-- An fx.Option, kept as a token. -/
abbrev FxOption := String

/-- An fxevent.Logger, kept as a token. -/
abbrev FxLogger := String

/-- The logger fxevent.NopLogger. -/
def NopLogger : FxLogger := "NopLogger"

/-- The container fx.New builds in createFxApp: its timeouts, its logger
and the options of the boot event. -/
structure FxApp where
  startTimeout : Int
  stopTimeout : Int
  logger : FxLogger
  options : List FxOption
  deriving DecidableEq, Repr

/-- The mutable state of the lifecycle: the fields fxApp and fxLogger of
BaseApp (none is nil); the exported fields of the events, which handlers
can write: Logger and Options of the boot event, Ctx of the start event,
Ctx and IsRestart of the stop event; a ghost count of the calls of
syscall.Exec; and the state ext of whatever else the registered handlers
touch. -/
structure World (α : Type) where
  fxApp : Option FxApp
  fxLogger : Option FxLogger
  bootLogger : Option FxLogger
  bootOptions : List FxOption
  execCalls : Nat
  ext : α
  startCtx : Context := Context.background
  stopCtx : Context := Context.background
  isRestart : Bool := false

/-- What the lifecycle takes from outside the repository: runtime.GOOS, the
methods Start and Stop of a container, os.Executable and syscall.Exec,
which returns only on failure (none stands for the replaced process
image). -/
structure Env where
  GOOS : String
  fxStart : FxApp → Context → Err
  fxStop : FxApp → Context → Err
  osExecutable : Except String String
  sysExec : String → Err

/-- The struct BootEvent, without the fields the boot action reads (Logger
and Options are in the world, where handlers write them). -/
structure BootEvent where
  Ctx : Context

/-- The struct StartEvent; its field Ctx is in the world (startCtx). -/
structure StartEvent where

/-- The struct StopEvent; its fields Ctx and IsRestart are in the world
(stopCtx, isRestart), where the handlers, which receive a pointer to the
event, can write them. -/
structure StopEvent where

/-- The struct BaseApp, without its mutable fields fxApp and fxLogger (they
are in the world) and without the configuration sources. -/
structure BaseApp (α : Type) where
  startTimeout : Int
  stopTimeout : Int
  name : String
  version : String
  onBootstrap : Hook BootEvent (World α)
  onStart : Hook StartEvent (World α)
  onStop : Hook StopEvent (World α)

/-- The function BootOptions of app.go: the handler appends the options to
the options of the boot event and calls e.Next(). -/
def BootOptions {α : Type} (options : List FxOption) : BootEvent → Prog (World α) :=
  fun _ =>
    Prog.get (fun w =>
      Prog.set { w with bootOptions := w.bootOptions ++ options } Prog.returnNext)

/-- The method start of BaseApp: app.fxApp.Start(event.Ctx), a call that
panics when the container is nil; a failure is wrapped and returned,
otherwise event.Next(). -/
def BaseApp.start {α : Type} (env : Env) (_app : BaseApp α) (_event : StartEvent) :
    Prog (World α) :=
  Prog.get (fun w =>
    match w.fxApp with
    | none => Prog.halt
    | some fx =>
      match env.fxStart fx w.startCtx with
      | some err => Prog.ret (some ("app: unable to start: " ++ err))
      | none => Prog.returnNext)

/-- The method stop of BaseApp: app.fxApp.Stop(event.Ctx), a call that
panics when the container is nil; a failure is returned unless
event.IsRestart is set; otherwise event.Next(). -/
def BaseApp.stop {α : Type} (env : Env) (_app : BaseApp α) (_event : StopEvent) :
    Prog (World α) :=
  Prog.get (fun w =>
    match w.fxApp with
    | none => Prog.halt
    | some fx =>
      match env.fxStop fx w.stopCtx with
      | some err => if !w.isRestart then Prog.ret (some err) else Prog.returnNext
      | none => Prog.returnNext)

/-- The method reset of BaseApp. -/
def BaseApp.reset {α : Type} (w : World α) : World α :=
  { w with fxApp := none, fxLogger := none }

/-- The method restart of BaseApp. -/
def BaseApp.restart {α : Type} (env : Env) (_app : BaseApp α) (_event : StopEvent) :
    Prog (World α) :=
  Prog.get (fun w =>
    if !w.isRestart then Prog.returnNext
    else
      Prog.set (BaseApp.reset w)
        (match env.osExecutable with
         | .error err => Prog.ret (some err)
         | .ok execPath =>
           Prog.get (fun w1 =>
             Prog.set { w1 with execCalls := w1.execCalls + 1 }
               (match env.sysExec execPath with
                | some err => Prog.ret (some err)
                | none => Prog.halt))))

/-- The method createFxApp of BaseApp. -/
def BaseApp.createFxApp {α : Type} (app : BaseApp α) (_event : BootEvent) : Prog (World α) :=
  Prog.get (fun w =>
    match w.bootLogger with
    | none => Prog.ret (some "app: bootstrap fx event logger is nil")
    | some logger =>
      Prog.set { w with fxLogger := some logger,
                        fxApp := some { startTimeout := app.startTimeout,
                                        stopTimeout := app.stopTimeout,
                                        logger := logger,
                                        options := w.bootOptions } }
        Prog.returnNext)

/-- The method Boot of BaseApp: the event starts with the no-op logger and
no options. -/
def BaseApp.Boot {α : Type} (app : BaseApp α) (ctx : Context) (w : World α) :
    Option (Outcome (World α)) :=
  app.onBootstrap.Trigger { Ctx := ctx } [app.createFxApp]
    { w with bootLogger := some NopLogger, bootOptions := [] }

/-- The method Start of BaseApp: the event is created with the context
bounded by the start timeout. -/
def BaseApp.Start {α : Type} (env : Env) (app : BaseApp α) (ctx : Context) (w : World α) :
    Option (Outcome (World α)) :=
  app.onStart.Trigger StartEvent.mk [app.start env]
    { w with startCtx := Context.withTimeout ctx app.startTimeout }

/-- The method Stop of BaseApp: the event is created with the context
bounded by the stop timeout and IsRestart false. -/
def BaseApp.Stop {α : Type} (env : Env) (app : BaseApp α) (ctx : Context) (w : World α) :
    Option (Outcome (World α)) :=
  app.onStop.Trigger StopEvent.mk [app.stop env]
    { w with stopCtx := Context.withTimeout ctx app.stopTimeout, isRestart := false }

/-- The error Restart returns on windows. -/
def errRestartUnsupported : String := "app: restart is not supported on windows"

/-- The method Restart of BaseApp: on windows the fixed error; otherwise the
event is created with the context bounded by the stop timeout and IsRestart
true, and the stop hook is triggered with the actions stop and restart. -/
def BaseApp.Restart {α : Type} (env : Env) (app : BaseApp α) (ctx : Context) (w : World α) :
    Option (Outcome (World α)) :=
  if env.GOOS = "windows" then
    some (.returned (some errRestartUnsupported) (State.init w))
  else
    app.onStop.Trigger StopEvent.mk [app.stop env, app.restart env]
      { w with stopCtx := Context.withTimeout ctx app.stopTimeout, isRestart := true }

/-- The statement calls += s of the tests, followed by k. -/
def emit (s : String) (k : Prog String) : Prog String :=
  Prog.get (fun calls => Prog.set (calls ++ s) k)

/-- The binds of TestHookAddHandlerAndAdd (hook_test.go), in order; the
fourth one rebinds the ID the third BindFunc returned. -/
def testBinds : List (Handler Unit String) :=
  [{ ID := "", Priority := 0, Func := fun _ => emit "1" Prog.returnNext },
   { ID := "", Priority := 0, Func := fun _ => emit "2" Prog.returnNext },
   { ID := "", Priority := 0, Func := fun _ => emit "3" Prog.returnNext },
   { ID := "hhh", Priority := 0, Func := fun _ => emit "3'" Prog.returnNext },
   { ID := "", Priority := -2, Func := fun _ => emit "4" Prog.returnNext },
   { ID := "", Priority := -1, Func := fun _ => emit "5" Prog.returnNext },
   { ID := "", Priority := 0, Func := fun _ => emit "6" Prog.returnNext },
   { ID := "", Priority := 0,
     Func := fun _ => emit "7" (Prog.next (fun _ => Prog.ret (some "test"))) }]

/-- The hook of TestHookAddHandlerAndAdd after its binds. -/
def testHook : Hook Unit String := Hook.bindAll { slots := [] } testBinds

/-- The three one-off functions of TestHookAddHandlerAndAdd. -/
def testOneOff : List (Unit → Prog String) :=
  [fun _ => emit "8" Prog.returnNext,
   fun _ => emit "9" (Prog.ret none),
   fun _ => emit "10" Prog.returnNext]

/-- The event of hook_tagged_test.go. -/
structure MockTagsEvent where
  tags : List String

instance : Tagger MockTagsEvent := ⟨fun m => m.tags⟩

/-- The calls log of TestTaggedHook. -/
def emitT (s : String) : MockTagsEvent → Prog String := fun _ => emit s Prog.returnNext

/-- The main hook of TestTaggedHook after the bind of f0 and the binds
through hA, which has no tags. -/
def taggedBase : Hook MockTagsEvent String :=
  let base : Hook MockTagsEvent String := { slots := [] }
  let base := (base.BindFunc (emitT "f0")).1
  let base := ((NewTaggedHook base []).BindFunc (emitT "a1")).1
  ((NewTaggedHook base []).Bind { ID := "", Priority := -1, Func := emitT "a2" }).1

/-- The main hook of TestTaggedHook after the binds through hA, hB and hC. -/
def taggedTestHook : Hook MockTagsEvent String :=
  let base := taggedBase
  let base := ((NewTaggedHook base ["b1", "b2"]).BindFunc (emitT "b1")).1
  let base := ((NewTaggedHook base ["b1", "b2"]).Bind { ID := "", Priority := -2, Func := emitT "b2" }).1
  let base := ((NewTaggedHook base ["c1", "c2"]).BindFunc (emitT "c1")).1
  ((NewTaggedHook base ["c1", "c2"]).Bind { ID := "", Priority := -3, Func := emitT "c2" }).1

/-- The call that ended in out invoked exactly the first k links of the
chain left in st, in chain order; the event is left pointing at the links
after them, or at none; and the failures it recorded are failures of those
links, a link scheduled later first. -/
def Advances {σ : Type} (k : Nat) (st : State σ) (out : Outcome σ) : Prop :=
  k ≤ st.event.next.length ∧
    out.state.trace = st.trace ++ tagsOf (st.event.next.take k) ∧
    (out.state.event.next = st.event.next.drop k ∨ out.state.event.next = []) ∧
    ∃ F : List (LinkTag × String), out.state.failures = st.failures ++ F ∧
      List.Sublist (F.map Prod.fst) (tagsOf (st.event.next.take k)).reverse

/-- How a call of e.Next() leaves the event when it returns: no link is
left, and a failure it returns is in the record. -/
def Outcome.Settled {σ : Type} : Outcome σ → Prop
  | .returned err st => st.event.next = [] ∧ (err ≠ none → st.failures ≠ [])
  | .halted _ => True

/-- The IDs of the handlers, in order. -/
def handlerIDs {ε σ : Type} (hs : List (Handler ε σ)) : List String := hs.map (fun a => a.ID)

/-- The handler x in place of a when a has the ID of x, else a. -/
def replaceById {ε σ : Type} (x a : Handler ε σ) : Handler ε σ := if a.ID = x.ID then x else a

/-- The IDs are pairwise distinct and none is empty. -/
def ValidIDs {ε σ : Type} (hs : List (Handler ε σ)) : Prop :=
  (handlerIDs hs).Nodup ∧ "" ∉ handlerIDs hs

/-- Four binds: handlers a, b and c with priorities 1, 0 and 1, then a
rebind of b with priority 1.  Every function is return e.Next(). -/
def rebindBinds : List (Handler Unit Unit) :=
  [{ ID := "a", Priority := 1, Func := fun _ => Prog.returnNext },
   { ID := "b", Priority := 0, Func := fun _ => Prog.returnNext },
   { ID := "c", Priority := 1, Func := fun _ => Prog.returnNext },
   { ID := "b", Priority := 1, Func := fun _ => Prog.returnNext }]

/-- A hook with one registered handler that calls e.Next() twice:
calls += "r"; _ = e.Next(); return e.Next(). -/
def twiceHook : Hook Unit String :=
  (Hook.BindFunc { slots := [] }
    (fun _ => emit "r" (Prog.next (fun _ => Prog.returnNext)))).1

/-- Two one-off functions: the first returns nil without calling e.Next(),
as the one-off "9" of TestHookAddHandlerAndAdd does, the second is its
one-off "10". -/
def stopOneOff : List (Unit → Prog String) :=
  [fun _ => emit "9" (Prog.ret none),
   fun _ => emit "10" Prog.returnNext]

/-- The handlers of the scenario "with error" of
TestHookTriggerErrorPropagation, bound with BindFunc: the second one calls
e.Next() and then returns the error. -/
def errorHook : Hook Unit Unit :=
  Hook.bindAll { slots := [] }
    [{ ID := "", Priority := 0, Func := fun _ => Prog.returnNext },
     { ID := "", Priority := 0, Func := fun _ => Prog.next (fun _ => Prog.ret (some "test")) },
     { ID := "", Priority := 0, Func := fun _ => Prog.returnNext }]

/-- The handlers of the scenario "without error" of
TestHookTriggerErrorPropagation. -/
def okHook : Hook Unit Unit :=
  Hook.bindAll { slots := [] }
    [{ ID := "", Priority := 0, Func := fun _ => Prog.returnNext },
     { ID := "", Priority := 0, Func := fun _ => Prog.returnNext }]

/-- Two handlers: the first calls e.Next(), drops what it returned and
returns nil; the second calls e.Next() and then returns an error. -/
def swallowHook : Hook Unit Unit :=
  Hook.bindAll { slots := [] }
    [{ ID := "", Priority := 0, Func := fun _ => Prog.next (fun _ => Prog.ret none) },
     { ID := "", Priority := 0, Func := fun _ => Prog.next (fun _ => Prog.ret (some "test")) }]

/-- The states of two runs, one over a chain in which the links tagged W
only pass through (their body is return e.Next()), the other over the same
chain without those links: same world, same links invoked apart from W,
same links left apart from W, same failures apart from those W passed on,
the same first failure. -/
def PassThrough {σ : Type} (W : LinkTag) (st1 st2 : State σ) : Prop :=
  (∀ l ∈ st1.event.next, l.tag = W → l.body = Prog.returnNext) ∧
    st2.event.next = st1.event.next.filter (fun l => decide (l.tag ≠ W)) ∧
    st2.world = st1.world ∧
    st2.trace = st1.trace.filter (fun t => decide (t ≠ W)) ∧
    st2.failures = st1.failures.filter (fun p => decide (p.1 ≠ W)) ∧
    st2.failures.head?.map Prod.snd = st1.failures.head?.map Prod.snd

/-- Two calls end alike: both return the same value or both never return,
in states that correspond. -/
def SimOutcome {σ : Type} (W : LinkTag) : Outcome σ → Outcome σ → Prop
  | .returned e1 s1, .returned e2 s2 => e1 = e2 ∧ PassThrough W s1 s2
  | .halted s1, .halted s2 => PassThrough W s1 s2
  | _, _ => False

/-- A one-off function that returns a failure without calling e.Next(). -/
def failingOneOff : List (MockTagsEvent → Prog String) := [fun _ => Prog.ret (some "boom")]

/-- A handler function that calls e.Next(), drops what it returned and
returns nil. -/
def nextThenNil : MockTagsEvent → Prog String := fun _ => Prog.next (fun _ => Prog.ret none)

/-- A handler function that logs what e.Next() returned and returns it:
err := e.Next(); calls += fmt.Sprint(err); return err. -/
def observe : MockTagsEvent → Prog String :=
  fun _ => Prog.next (fun r => emit (r.getD "nil") (Prog.ret r))

/-- A main hook with one handler, bound under the ID a, which logs a and
returns a failure. -/
def shadowBase : Hook MockTagsEvent String :=
  (Hook.Bind { slots := [] }
    { ID := "a", Priority := 0, Func := fun _ => emit "a" (Prog.ret (some "a failed")) }).1

/-- An environment in which the container's Stop fails with "stop failed"
and the process image can be replaced. -/
def failingStopEnv : Env :=
  { GOOS := "linux",
    fxStart := fun _ _ => none,
    fxStop := fun _ _ => some "stop failed",
    osExecutable := .ok "/bin/app",
    sysExec := fun _ => none }

/-- The same environment on windows. -/
def windowsEnv : Env := { failingStopEnv with GOOS := "windows" }

/-- An application with no registered handlers. -/
def plainApp : BaseApp Unit :=
  { startTimeout := 15, stopTimeout := 15, name := "app", version := "1",
    onBootstrap := { slots := [] }, onStart := { slots := [] },
    onStop := { slots := [] } }

/-- An application whose stop hook has one handler, which calls e.Next(),
drops what it returned and returns nil. -/
def swallowApp : BaseApp Unit :=
  { plainApp with
    onStop := (Hook.BindFunc { slots := [] } (fun _ => Prog.next (fun _ => Prog.ret none))).1 }

/-- An application whose stop hook has one handler, return e.Next(). -/
def observedApp : BaseApp Unit :=
  { plainApp with onStop := (Hook.BindFunc { slots := [] } (fun _ => Prog.returnNext)).1 }

/-- An application whose stop hook has one handler, which inverts the flag
of the event: e.IsRestart = !e.IsRestart; return e.Next(). -/
def flipApp : BaseApp Unit :=
  { plainApp with
    onStop := (Hook.BindFunc { slots := [] }
      (fun _ => Prog.get (fun w =>
        Prog.set { w with isRestart := !w.isRestart } Prog.returnNext))).1 }

/-- A started application: a container and its logger are set. -/
def startedWorld : World Unit :=
  { fxApp := some { startTimeout := 15, stopTimeout := 15, logger := NopLogger, options := [] },
    fxLogger := some NopLogger, bootLogger := some NopLogger, bootOptions := [],
    execCalls := 0, ext := () }

/-- The body keeps the quantity f of the world at the value v: every world
it writes has f at v, provided every world it reads has. -/
def Prog.Keeps {σ β : Type} (f : σ → β) (v : β) : Prog σ → Prop
  | .ret _ => True
  | .next k => ∀ r, (k r).Keeps f v
  | .get k => ∀ w, f w = v → (k w).Keeps f v
  | .set w k => f w = v ∧ k.Keeps f v
  | .halt => True

/-- The two assignments of createFxApp: app.fxLogger = event.Logger and
app.fxApp = fx.New(...), with the timeouts of the application, the logger
and the options of the event. -/
def BaseApp.install {α : Type} (app : BaseApp α) (logger : FxLogger) (w : World α) : World α :=
  { w with fxLogger := some logger,
           fxApp := some { startTimeout := app.startTimeout,
                           stopTimeout := app.stopTimeout,
                           logger := logger,
                           options := w.bootOptions } }

/-- The references the orchestrator owns: the container and its logger. -/
def World.owned {α : Type} (w : World α) : Option FxApp × Option FxLogger :=
  (w.fxApp, w.fxLogger)

/-- An application with two boot handlers, BootOptions("a") and
BootOptions("b", "c"). -/
def optionsApp : BaseApp Unit :=
  { plainApp with
    onBootstrap := Hook.bindAll { slots := [] }
      [{ ID := "", Priority := 0, Func := BootOptions ["a"] },
       { ID := "", Priority := 0, Func := BootOptions ["b", "c"] }] }

/-- An application with a boot handler that sets event.Logger = nil and
calls e.Next(). -/
def noLoggerApp : BaseApp Unit :=
  { plainApp with
    onBootstrap := (Hook.BindFunc { slots := [] }
      (fun _ => Prog.get (fun w =>
        Prog.set { w with bootLogger := none } Prog.returnNext))).1 }

/-- An application that was not booted: no container, no logger. -/
def idleWorld : World Unit :=
  { fxApp := none, fxLogger := none, bootLogger := none, bootOptions := [],
    execCalls := 0, ext := () }

/-- An environment in which the container stops and os.Executable fails. -/
def noExecutableEnv : Env :=
  { failingStopEnv with
    fxStop := fun _ _ => none, osExecutable := .error "executable not found" }

/-- An environment in which the container stops and syscall.Exec fails. -/
def execFailsEnv : Env :=
  { failingStopEnv with fxStop := fun _ _ => none, sysExec := fun _ => some "exec failed" }

/-- An environment in which the container stops and the process image can
be replaced. -/
def okEnv : Env := { failingStopEnv with fxStop := fun _ _ => none }

/-! ## The chain engine -/

theorem Event.Next_nil {σ : Type} (fuel : Nat) (st : State σ) (hn : st.event.next = []) :
    Event.Next fuel st = some (.returned none st) := by
  cases fuel <;> simp [Event.Next, Event.nextFunc, hn]

/-- A call of e.Next() with links left unfolds into the run of the first
link. -/
theorem Event.Next_cons {σ : Type} (fuel : Nat) (st : State σ) (l : Link σ)
    (old : List (Link σ)) (hn : st.event.next = l :: old) (out : Outcome σ)
    (h1 : l.body.exec (Event.Next fuel)
      { st with event := st.event.setNextFunc old, trace := st.trace ++ [l.tag] } = some out) :
    Event.Next (fuel + 1) st =
      some (match out with
        | .returned err st1 => .returned err (st1.leave l.tag err)
        | .halted st1 => .halted st1) := by
  simp only [Event.Next, Event.nextFunc, hn, h1]
  cases out <;> rfl

theorem Advances.zero {σ : Type} (st : State σ) (out : Outcome σ)
    (he : out.state.event = st.event) (ht : out.state.trace = st.trace)
    (hf : out.state.failures = st.failures) : Advances 0 st out := by
  refine ⟨Nat.zero_le _, ?_, Or.inl ?_, [], ?_, ?_⟩
  · simp [ht, tagsOf]
  · simp [he]
  · simp [hf]
  · simp

/-- A call that left the event, the trace and the record as another call
left them advanced as far. -/
theorem Advances.of_frame {σ : Type} {k : Nat} {st : State σ} {out1 out : Outcome σ}
    (h : Advances k st out1) (he : out.state.event = out1.state.event)
    (ht : out.state.trace = out1.state.trace)
    (hf : out.state.failures = out1.state.failures) : Advances k st out := by
  obtain ⟨h1, h2, h3, F, h4, h5⟩ := h
  exact ⟨h1, by rw [ht, h2], by rw [he]; exact h3, F, by rw [hf, h4], h5⟩

theorem Advances.of_world {σ : Type} {k : Nat} {st : State σ} {out : Outcome σ} (w : σ)
    (h : Advances k { st with world := w } out) : Advances k st out := h

theorem Advances.length_le {σ : Type} {k : Nat} {st : State σ} {out : Outcome σ}
    (h : Advances k st out) : out.state.event.next.length ≤ st.event.next.length := by
  rcases h.2.2.1 with h1 | h1
  · rw [h1, List.length_drop]
    omega
  · rw [h1]
    exact Nat.zero_le _

/-- Popping the first link and then invoking k links invokes k + 1. -/
theorem Advances.pop {σ : Type} {k : Nat} {st : State σ} {out : Outcome σ} {l : Link σ}
    {old : List (Link σ)} (hn : st.event.next = l :: old)
    (h : Advances k { st with event := st.event.setNextFunc old, trace := st.trace ++ [l.tag] } out) :
    Advances (k + 1) st out := by
  obtain ⟨h1, h2, h3, F, h4, h5⟩ := h
  simp only [Event.setNextFunc] at h1 h2 h3 h5
  refine ⟨?_, ?_, ?_, F, h4, ?_⟩
  · rw [hn]; simpa using h1
  · rw [h2, hn]; simp [tagsOf]
  · rw [hn]; simpa using h3
  · rw [hn]
    simp only [List.take_succ_cons, tagsOf, List.map_cons, List.reverse_cons]
    exact h5.trans (List.sublist_append_left _ _)

/-- Popping the first link, invoking k links and leaving the first link
invokes k + 1 links and leaves the event settled. -/
theorem Advances.pop_leave {σ : Type} {k : Nat} {st st1 : State σ} {err : Err} {l : Link σ}
    {old : List (Link σ)} (hn : st.event.next = l :: old)
    (h : Advances k { st with event := st.event.setNextFunc old, trace := st.trace ++ [l.tag] }
      (.returned err st1)) :
    Advances (k + 1) st (.returned err (st1.leave l.tag err)) ∧
      (Outcome.returned err (st1.leave l.tag err)).Settled := by
  obtain ⟨h1, h2, _, F, h4, h5⟩ := h
  simp only [Event.setNextFunc, Outcome.state] at h1 h2 h4 h5
  refine ⟨⟨?_, ?_, Or.inr rfl, F ++ failureOf l.tag err, ?_, ?_⟩, rfl, ?_⟩
  · rw [hn]; simpa using h1
  · show st1.trace = _
    rw [h2, hn]; simp [tagsOf]
  · show st1.failures ++ _ = _
    rw [h4, List.append_assoc]
  · rw [hn]
    simp only [List.take_succ_cons, tagsOf, List.map_cons, List.reverse_cons, List.map_append]
    refine List.Sublist.append h5 ?_
    cases err with
    | none => simp [failureOf]
    | some f => simp [failureOf]
  · intro he
    cases err with
    | none => exact absurd rfl he
    | some f => simp [State.leave, failureOf]

/-- The run of a first link gives the result of the call of e.Next() that
invoked it. -/
theorem Event.Next_step {σ : Type} (g : Nat) (st : State σ) (l : Link σ) (old : List (Link σ))
    (hn : st.event.next = l :: old) (out : Outcome σ) (k : Nat)
    (h1 : l.body.exec (Event.Next g)
      { st with event := st.event.setNextFunc old, trace := st.trace ++ [l.tag] } = some out)
    (adv : Advances k
      { st with event := st.event.setNextFunc old, trace := st.trace ++ [l.tag] } out) :
    ∃ out1, Event.Next (g + 1) st = some out1 ∧ Advances (k + 1) st out1 ∧ out1.Settled ∧
      out1.state.world = out.state.world ∧ out1.result = out.result ∧
      out1.state.trace = out.state.trace ∧
      (∀ s, out = .halted s → out1 = .halted s) ∧
      (∀ err s, out = .returned err s → out1 = .returned err (s.leave l.tag err)) ∧
      ∃ G : List (LinkTag × String), out1.state.failures = out.state.failures ++ G ∧
        List.Sublist (G.map Prod.fst) [l.tag] := by
  rw [Event.Next_cons g st l old hn out h1]
  cases out with
  | halted s =>
    exact ⟨_, rfl, Advances.pop hn adv, trivial, rfl, rfl, rfl, fun s hs => hs,
      fun err s hs => (by cases hs), [], by simp, by simp⟩
  | returned err s =>
    obtain ⟨h2, h3⟩ := Advances.pop_leave hn adv
    refine ⟨_, rfl, h2, h3, rfl, rfl, rfl, fun s hs => (by cases hs),
      fun err s hs => (by cases hs; rfl), failureOf l.tag err, rfl, ?_⟩
    cases err <;> simp [failureOf]

/-- Once no link is left a body cannot invoke anything more: it leaves the
event, the trace and the record as they are. -/
theorem Prog.exec_exhausted {σ : Type} (callNext : State σ → Option (Outcome σ))
    (h0 : ∀ st : State σ, st.event.next = [] → callNext st = some (.returned none st)) :
    ∀ (p : Prog σ) (st : State σ), st.event.next = [] →
      ∃ out, p.exec callNext st = some out ∧ out.state.event = st.event ∧
        out.state.trace = st.trace ∧ out.state.failures = st.failures ∧
        (p.NoHalt → ∃ r s, out = .returned r s) := by
  intro p
  induction p with
  | ret err => intro st _; exact ⟨.returned err st, rfl, rfl, rfl, rfl, fun _ => ⟨_, _, rfl⟩⟩
  | next k ih =>
    intro st hst
    obtain ⟨out, h2, h3, h4, h5, h6⟩ := ih none st hst
    exact ⟨out, by simp [Prog.exec, h0 st hst, h2], h3, h4, h5, fun hn => h6 (hn none)⟩
  | get k ih =>
    intro st hst
    obtain ⟨out, h1, h3, h4, h5, h6⟩ := ih st.world st hst
    exact ⟨out, by simp [Prog.exec, h1], h3, h4, h5, fun hn => h6 (hn st.world)⟩
  | set w k ih =>
    intro st hst
    obtain ⟨out, h1, h3, h4, h5, h6⟩ := ih { st with world := w } hst
    exact ⟨out, by simp [Prog.exec, h1], h3, h4, h5, fun hn => h6 hn⟩
  | halt =>
    intro st _
    exact ⟨.halted st, rfl, rfl, rfl, rfl, fun hn => absurd hn (by simp [Prog.NoHalt])⟩

/-- Running a body invokes a stretch of the chain, provided each call of
the continuation does and leaves the event settled. -/
theorem Prog.exec_advances {σ : Type} (callNext : State σ → Option (Outcome σ)) (n : Nat)
    (h0 : ∀ st : State σ, st.event.next = [] → callNext st = some (.returned none st))
    (hc : ∀ st : State σ, st.event.next.length ≤ n →
      ∃ out k, callNext st = some out ∧ Advances k st out ∧ out.Settled) :
    ∀ (p : Prog σ) (st : State σ), st.event.next.length ≤ n →
      ∃ out k, p.exec callNext st = some out ∧ Advances k st out := by
  intro p
  induction p with
  | ret err =>
    intro st _
    exact ⟨.returned err st, 0, rfl, Advances.zero _ _ rfl rfl rfl⟩
  | next k _ =>
    intro st hst
    obtain ⟨out1, k1, h1, adv1, hs1⟩ := hc st hst
    cases out1 with
    | halted st1 =>
      exact ⟨.halted st1, k1, by simp [Prog.exec, h1], adv1⟩
    | returned r st1 =>
      obtain ⟨out, h2, he, ht, hf, _⟩ := Prog.exec_exhausted callNext h0 (k r) st1 hs1.1
      exact ⟨out, k1, by simp [Prog.exec, h1, h2], adv1.of_frame he ht hf⟩
  | get k ih =>
    intro st hst
    obtain ⟨out, k1, h1, adv1⟩ := ih st.world st hst
    exact ⟨out, k1, by simp [Prog.exec, h1], adv1⟩
  | set w k ih =>
    intro st hst
    obtain ⟨out, k1, h1, adv1⟩ := ih { st with world := w } hst
    exact ⟨out, k1, by simp [Prog.exec, h1], adv1.of_world w⟩
  | halt =>
    intro st _
    exact ⟨.halted st, 0, rfl, Advances.zero _ _ rfl rfl rfl⟩

/-- The call e.Next() always ends when the bound covers the chain that is
left; it invokes a stretch of that chain, the next links in chain order,
each once; and when it returns no link is left. -/
theorem Event.Next_advances {σ : Type} : ∀ (fuel : Nat) (st : State σ),
    st.event.next.length ≤ fuel →
      ∃ out k, Event.Next fuel st = some out ∧ Advances k st out ∧ out.Settled := by
  intro fuel
  induction fuel with
  | zero =>
    intro st hst
    have hnil : st.event.next = [] := List.length_eq_zero.mp (Nat.le_zero.mp hst)
    exact ⟨.returned none st, 0, Event.Next_nil 0 st hnil, Advances.zero _ _ rfl rfl rfl,
      hnil, fun h => absurd rfl h⟩
  | succ fuel ih =>
    intro st hst
    cases hn : st.event.next with
    | nil =>
      exact ⟨.returned none st, 0, Event.Next_nil _ st hn, Advances.zero _ _ rfl rfl rfl,
        hn, fun h => absurd rfl h⟩
    | cons l old =>
      have hlen : old.length ≤ fuel := by
        rw [hn] at hst; simpa using hst
      obtain ⟨out, k, h1, adv⟩ := Prog.exec_advances (Event.Next fuel) fuel
        (Event.Next_nil fuel) ih l.body
        { st with event := st.event.setNextFunc old, trace := st.trace ++ [l.tag] } hlen
      obtain ⟨out1, h2, adv1, hs1, _⟩ := Event.Next_step fuel st l old hn out k h1 adv
      exact ⟨out1, k + 1, h2, adv1, hs1⟩

/-- Two continuations that agree on every chain of at most n links give the
same run of a body. -/
theorem Prog.exec_congr {σ : Type} (c1 c2 : State σ → Option (Outcome σ)) (n : Nat)
    (hadv : ∀ st : State σ, st.event.next.length ≤ n →
      ∃ out k, c1 st = some out ∧ Advances k st out)
    (heq : ∀ st : State σ, st.event.next.length ≤ n → c1 st = c2 st) :
    ∀ (p : Prog σ) (st : State σ), st.event.next.length ≤ n → p.exec c1 st = p.exec c2 st := by
  intro p
  induction p with
  | ret err => intro st _; rfl
  | next k ih =>
    intro st hst
    obtain ⟨out1, k1, h1, adv1⟩ := hadv st hst
    have h2 : c2 st = some out1 := by rw [← heq st hst, h1]
    cases out1 with
    | halted st1 => simp [Prog.exec, h1, h2]
    | returned r st1 =>
      have hlen : st1.event.next.length ≤ n := le_trans adv1.length_le hst
      simp [Prog.exec, h1, h2, ih r st1 hlen]
  | get k ih => intro st hst; simp [Prog.exec, ih st.world st hst]
  | set w k ih => intro st hst; simp [Prog.exec, ih { st with world := w } hst]
  | halt => intro st _; rfl

/-- Any bound that covers the chain gives the same result. -/
theorem Event.Next_fuel {σ : Type} : ∀ (n f1 f2 : Nat) (st : State σ),
    st.event.next.length ≤ n → n ≤ f1 → n ≤ f2 → Event.Next f1 st = Event.Next f2 st := by
  intro n
  induction n with
  | zero =>
    intro f1 f2 st hst _ _
    have hnil : st.event.next = [] := List.length_eq_zero.mp (Nat.le_zero.mp hst)
    rw [Event.Next_nil f1 st hnil, Event.Next_nil f2 st hnil]
  | succ n ih =>
    intro f1 f2 st hst h1 h2
    obtain ⟨g1, rfl⟩ : ∃ g, f1 = g + 1 := ⟨f1 - 1, by omega⟩
    obtain ⟨g2, rfl⟩ : ∃ g, f2 = g + 1 := ⟨f2 - 1, by omega⟩
    cases hn : st.event.next with
    | nil => rw [Event.Next_nil _ st hn, Event.Next_nil _ st hn]
    | cons l old =>
      have hlen : old.length ≤ n := by rw [hn] at hst; simpa using hst
      have hex := Prog.exec_congr (Event.Next g1) (Event.Next g2) n
        (fun st hst => by
          obtain ⟨out, k, h, adv, _⟩ := Event.Next_advances g1 st (by omega)
          exact ⟨out, k, h, adv⟩)
        (fun st hst => ih g1 g2 st hst (by omega) (by omega)) l.body
        { st with event := st.event.setNextFunc old, trace := st.trace ++ [l.tag] } hlen
      simp only [Event.Next, Event.nextFunc, hn, hex]

/-- A body that, from the world it is entered in, does not come to call
e.Next() ends without touching the event, the trace or the record, whatever
the continuation is. -/
theorem Prog.exec_toNext_none {σ : Type} (callNext : State σ → Option (Outcome σ)) :
    ∀ (p : Prog σ) (st : State σ), p.toNext st.world = none →
      ∃ out, p.exec callNext st = some out ∧ out.state.event = st.event ∧
        out.state.trace = st.trace ∧ out.state.failures = st.failures := by
  intro p
  induction p with
  | ret err => intro st _; exact ⟨.returned err st, rfl, rfl, rfl, rfl⟩
  | next k _ => intro st h; simp [Prog.toNext] at h
  | get k ih =>
    intro st h
    obtain ⟨out, h1, h3⟩ := ih st.world st h
    exact ⟨out, by simp [Prog.exec, h1], h3⟩
  | set w k ih =>
    intro st h
    obtain ⟨out, h1, h3⟩ := ih { st with world := w } h
    exact ⟨out, by simp [Prog.exec, h1], h3⟩
  | halt => intro st _; exact ⟨.halted st, rfl, rfl, rfl, rfl⟩

/-- A body that, from the world it is entered in, comes to call e.Next() in
the world w1 runs as that call followed by the rest of the body. -/
theorem Prog.exec_toNext_some {σ : Type} (callNext : State σ → Option (Outcome σ)) :
    ∀ (p : Prog σ) (st : State σ) (w1 : σ), p.toNext st.world = some w1 →
      ∃ k : Err → Prog σ, (p.NoHalt → ∀ r, (k r).NoHalt) ∧ p.exec callNext st =
        match callNext { st with world := w1 } with
        | none => none
        | some (.halted st1) => some (.halted st1)
        | some (.returned r st1) => (k r).exec callNext st1 := by
  intro p
  induction p with
  | ret err => intro st w1 h; simp [Prog.toNext] at h
  | next k _ =>
    intro st w1 h
    simp only [Prog.toNext, Option.some.injEq] at h
    subst h
    refine ⟨k, fun hn => hn, ?_⟩
    have hst : ({ st with world := st.world } : State σ) = st := by cases st; rfl
    rw [hst]
    simp only [Prog.exec]
  | get k ih =>
    intro st w1 h
    obtain ⟨k1, hk, h1⟩ := ih st.world st w1 h
    exact ⟨k1, fun hn => hk (hn st.world), by simp only [Prog.exec]; exact h1⟩
  | set w k ih =>
    intro st w1 h
    obtain ⟨k1, hk, h1⟩ := ih { st with world := w } w1 h
    exact ⟨k1, fun hn => hk hn, by simp only [Prog.exec]; exact h1⟩
  | halt => intro st w1 h; simp [Prog.toNext] at h

/-- A body that comes to call e.Next() advances as far as that call, when
the call leaves the event settled. -/
theorem Prog.exec_first {σ : Type} (callNext : State σ → Option (Outcome σ))
    (h0 : ∀ st : State σ, st.event.next = [] → callNext st = some (.returned none st))
    (p : Prog σ) (st : State σ) (w1 : σ) (hp : p.toNext st.world = some w1)
    (out1 : Outcome σ) (k : Nat) (h1 : callNext { st with world := w1 } = some out1)
    (adv : Advances k st out1) (hs : out1.Settled) :
    ∃ out, p.exec callNext st = some out ∧ Advances k st out ∧
      (∀ s, out1 = .halted s → out = .halted s) ∧
      out.state.event = out1.state.event ∧ out.state.trace = out1.state.trace ∧
      out.state.failures = out1.state.failures ∧
      (p.NoHalt → ∀ r s, out1 = .returned r s → ∃ r2 s2, out = .returned r2 s2) := by
  obtain ⟨k1, hnh, hk⟩ := Prog.exec_toNext_some callNext p st w1 hp
  rw [h1] at hk
  cases out1 with
  | halted s =>
    exact ⟨.halted s, hk, adv, fun s hs => hs, rfl, rfl, rfl, fun _ r s hs => (by cases hs)⟩
  | returned r s =>
    obtain ⟨out, h2, he, ht, hf, hret⟩ := Prog.exec_exhausted callNext h0 (k1 r) s hs.1
    exact ⟨out, by rw [hk]; exact h2, adv.of_frame he ht hf, fun s hs => (by cases hs),
      he, ht, hf, fun hn _ _ _ => hret (hnh hn r)⟩

/-! ## Runs that are followed from the world they start in -/

theorem entryWorld_append {σ : Type} (a b : List (Link σ)) :
    ∀ w : σ, entryWorld (a ++ b) w = (entryWorld a w).bind (entryWorld b) := by
  induction a with
  | nil => intro w; rfl
  | cons l a ih =>
    intro w
    simp only [List.cons_append, entryWorld]
    cases l.body.toNext w with
    | none => rfl
    | some w1 => exact ih w1

/-- When the links of pre, in the run at hand, each invoke the continuation,
the call e.Next() ends as the call that starts at the links after them
does: it never returns if that call does not, and else it has invoked the
same links and added to the record only failures of the links of pre. -/
theorem Event.Next_prefix {σ : Type} (rest : List (Link σ)) :
    ∀ (pre : List (Link σ)) (fuel : Nat) (st : State σ) (w1 : σ),
      st.event.next = pre ++ rest → entryWorld pre st.world = some w1 →
      (pre ++ rest).length ≤ fuel →
      ∃ outR out,
        Event.Next fuel { event := { next := rest }, world := w1,
                          trace := st.trace ++ tagsOf pre, failures := st.failures } = some outR ∧
        Event.Next fuel st = some out ∧
        (∀ s, outR = .halted s → out = .halted s) ∧
        ((∀ l ∈ pre, l.body.NoHalt) → ∀ r s, outR = .returned r s →
          ∃ r2 s2, out = .returned r2 s2) ∧
        out.state.trace = outR.state.trace ∧
        ∃ G : List (LinkTag × String), out.state.failures = outR.state.failures ++ G ∧
          List.Sublist (G.map Prod.fst) (tagsOf pre).reverse := by
  intro pre
  induction pre with
  | nil =>
    intro fuel st w1 hn hw hlen
    simp only [entryWorld, Option.some.injEq] at hw
    subst hw
    obtain ⟨out, k, h1, _, _⟩ := Event.Next_advances fuel st (by rw [hn]; exact hlen)
    have hst : ({ event := { next := rest }, world := st.world,
                  trace := st.trace ++ tagsOf ([] : List (Link σ)),
                  failures := st.failures } : State σ) = st := by
      cases st with
      | mk e w t f =>
        cases e
        simp only [List.nil_append] at hn
        simp [tagsOf, hn]
    rw [hst]
    exact ⟨out, out, h1, h1, fun s hs => hs, fun _ r s hs => ⟨r, s, hs⟩, rfl, [], by simp,
      by simp⟩
  | cons a pre ih =>
    intro fuel st w1 hn hw hlen
    obtain ⟨g, rfl⟩ : ∃ g, fuel = g + 1 := ⟨fuel - 1, by simp at hlen; omega⟩
    rw [List.cons_append] at hn
    simp only [entryWorld, Option.bind_eq_some] at hw
    obtain ⟨wa, ha, hw⟩ := hw
    have hlen2 : (pre ++ rest).length ≤ g := by simpa using hlen
    obtain ⟨outR, out2, hR, h2, hh, hret, ht, G2, hf, hsub⟩ := ih g
      { st with event := st.event.setNextFunc (pre ++ rest), trace := st.trace ++ [a.tag],
                world := wa } w1 rfl hw hlen2
    obtain ⟨out2b, k, h2b, adv2, hs2⟩ := Event.Next_advances g
      { st with event := st.event.setNextFunc (pre ++ rest), trace := st.trace ++ [a.tag],
                world := wa } hlen2
    rw [h2] at h2b
    cases Option.some.inj h2b
    obtain ⟨out3, h3, adv3, hh3, _, ht3, hf3, hret3⟩ := Prog.exec_first (Event.Next g)
      (Event.Next_nil g) a.body
      { st with event := st.event.setNextFunc (pre ++ rest), trace := st.trace ++ [a.tag] }
      wa ha out2 k h2 adv2 hs2
    obtain ⟨out1, h1, _, _, _, _, ht1, hh1, hret1, G1, hf1, hsub1⟩ :=
      Event.Next_step g st a (pre ++ rest) hn out3 k h3 adv3
    have hRfuel : Event.Next (g + 1)
        { event := { next := rest }, world := w1, trace := st.trace ++ tagsOf (a :: pre),
          failures := st.failures } = some outR := by
      rw [← hR]
      have e1 : st.trace ++ tagsOf (a :: pre) = st.trace ++ [a.tag] ++ tagsOf pre := by
        simp [tagsOf]
      rw [e1]
      exact Event.Next_fuel rest.length _ _ _ le_rfl
        (by simp at hlen2; omega) (by simp at hlen2; omega)
    refine ⟨outR, out1, hRfuel, h1, ?_, ?_, ?_, G2 ++ G1, ?_, ?_⟩
    · intro s hs
      exact hh1 s (hh3 s (hh s hs))
    · intro hn r s hs
      obtain ⟨r2, s2, e2⟩ := hret (fun l hl => hn l (List.mem_cons_of_mem _ hl)) r s hs
      obtain ⟨r3, s3, e3⟩ := hret3 (hn a (List.mem_cons_self _ _)) r2 s2 e2
      exact ⟨_, _, hret1 r3 s3 e3⟩
    · rw [ht1, ht3, ht]
    · rw [hf1, hf3, hf, List.append_assoc]
    · simp only [tagsOf, List.map_cons, List.reverse_cons, List.map_append]
      exact List.Sublist.append hsub hsub1

/-- A body without a step that control never comes back from returns, when
the calls of the continuation do. -/
theorem Prog.exec_noHalt {σ : Type} (fuel : Nat)
    (hc : ∀ st : State σ, (∀ l ∈ st.event.next, l.body.NoHalt) → st.event.next.length ≤ fuel →
      ∃ r s, Event.Next fuel st = some (.returned r s)) :
    ∀ (p : Prog σ) (st : State σ), p.NoHalt → (∀ l ∈ st.event.next, l.body.NoHalt) →
      st.event.next.length ≤ fuel → ∃ r s, p.exec (Event.Next fuel) st = some (.returned r s) := by
  intro p
  induction p with
  | ret err => intro st _ _ _; exact ⟨err, st, rfl⟩
  | next k ih =>
    intro st h hall hlen
    obtain ⟨r1, s1, h1⟩ := hc st hall hlen
    obtain ⟨out, j, h2, _, hs⟩ := Event.Next_advances fuel st hlen
    rw [h1] at h2
    cases Option.some.inj h2
    have hnil : s1.event.next = [] := hs.1
    obtain ⟨r, s, h3⟩ := ih r1 s1 (h r1) (by rw [hnil]; simp) (by rw [hnil]; simp)
    exact ⟨r, s, by simp [Prog.exec, h1, h3]⟩
  | get k ih =>
    intro st h hall hlen
    obtain ⟨r, s, h1⟩ := ih st.world st (h st.world) hall hlen
    exact ⟨r, s, by simp [Prog.exec, h1]⟩
  | set w k ih =>
    intro st h hall hlen
    obtain ⟨r, s, h1⟩ := ih { st with world := w } h hall hlen
    exact ⟨r, s, by simp [Prog.exec, h1]⟩
  | halt => intro st h; exact absurd h (by simp [Prog.NoHalt])

/-- When no link that is left has a step that control never comes back
from, e.Next() returns. -/
theorem Event.Next_noHalt {σ : Type} : ∀ (fuel : Nat) (st : State σ),
    (∀ l ∈ st.event.next, l.body.NoHalt) → st.event.next.length ≤ fuel →
      ∃ r s, Event.Next fuel st = some (.returned r s) := by
  intro fuel
  induction fuel with
  | zero =>
    intro st _ hst
    have hnil : st.event.next = [] := List.length_eq_zero.mp (Nat.le_zero.mp hst)
    exact ⟨none, st, Event.Next_nil 0 st hnil⟩
  | succ fuel ih =>
    intro st hall hst
    cases hn : st.event.next with
    | nil => exact ⟨none, st, Event.Next_nil _ st hn⟩
    | cons l old =>
      rw [hn] at hall hst
      obtain ⟨r, s, h1⟩ := Prog.exec_noHalt fuel ih l.body
        { st with event := st.event.setNextFunc old, trace := st.trace ++ [l.tag] }
        (hall l (List.mem_cons_self _ _))
        (fun x hx => hall x (List.mem_cons_of_mem _ hx)) (by simpa using hst)
      exact ⟨r, s.leave l.tag r, by rw [Event.Next_cons fuel st l old hn _ h1]⟩

/-! ## Bind -/

theorem le_foldr_max (l : List Nat) : ∀ n ∈ l, n ≤ l.foldr max 0 := by
  induction l with
  | nil => simp
  | cons a l ih =>
    intro n hn
    rcases List.mem_cons.mp hn with rfl | h
    · exact le_max_left _ _
    · exact le_trans (ih n h) (le_max_right _ _)

theorem nodup_append_singleton {l : List String} {a : String} (hl : l.Nodup) (ha : a ∉ l) :
    (l ++ [a]).Nodup := by
  rw [List.nodup_append]
  refine ⟨hl, List.nodup_singleton _, ?_⟩
  intro b hb hb2
  rw [List.mem_singleton] at hb2
  exact ha (hb2 ▸ hb)

/-- A generated ID is not in use. -/
theorem generateHookId_not_mem (used : List String) : generateHookId used ∉ used := by
  intro h
  have hle : (generateHookId used).length ≤ (used.map String.length).foldr max 0 :=
    le_foldr_max _ _ (List.mem_map_of_mem _ h)
  simp [generateHookId, String.length] at hle

/-- A generated ID is not empty. -/
theorem generateHookId_ne_empty (used : List String) : generateHookId used ≠ "" := by
  intro h
  have : (generateHookId used).length = 0 := by rw [h]; rfl
  simp [generateHookId, String.length] at this

theorem replaceHandler_eq_none {ε σ : Type} (x : Handler ε σ) :
    ∀ l : List (Handler ε σ), x.ID ∉ handlerIDs l → replaceHandler x l = none := by
  intro l
  induction l with
  | nil => intro _; rfl
  | cons a l ih =>
    intro h
    have ha : a.ID ≠ x.ID := fun e => h (by simp [handlerIDs, e])
    have hl : x.ID ∉ handlerIDs l := fun e => h (by simp [handlerIDs] at e ⊢; exact Or.inr e)
    simp [replaceHandler, ha, ih hl]

theorem map_replaceById_of_not_mem {ε σ : Type} (x : Handler ε σ) :
    ∀ l : List (Handler ε σ), x.ID ∉ handlerIDs l → l.map (replaceById x) = l := by
  intro l
  induction l with
  | nil => intro _; rfl
  | cons a l ih =>
    intro h
    have ha : a.ID ≠ x.ID := fun e => h (by simp [handlerIDs, e])
    have hl : x.ID ∉ handlerIDs l := fun e => h (by simp [handlerIDs] at e ⊢; exact Or.inr e)
    simp [replaceById, ha, ih hl]

/-- With distinct IDs, replacing the first handler with the ID of x is
replacing every handler with that ID. -/
theorem replaceHandler_eq_map {ε σ : Type} (x : Handler ε σ) :
    ∀ l : List (Handler ε σ), (handlerIDs l).Nodup → x.ID ∈ handlerIDs l →
      replaceHandler x l = some (l.map (replaceById x)) := by
  intro l
  induction l with
  | nil => intro _ h; simp [handlerIDs] at h
  | cons a l ih =>
    intro hnd hmem
    have hnd2 : a.ID ∉ handlerIDs l ∧ (handlerIDs l).Nodup := by
      simpa [handlerIDs] using hnd
    by_cases ha : a.ID = x.ID
    · have hx : x.ID ∉ handlerIDs l := ha ▸ hnd2.1
      simp [replaceHandler, ha, replaceById, map_replaceById_of_not_mem x l hx]
    · have hx : x.ID ∈ handlerIDs l := by
        simp only [handlerIDs, List.map_cons, List.mem_cons] at hmem
        rcases hmem with h | h
        · exact absurd h.symm ha
        · exact h
      simp [replaceHandler, ha, replaceById, ih hnd2.2 hx]

theorem handlerIDs_map_replaceById {ε σ : Type} (x : Handler ε σ) (l : List (Handler ε σ)) :
    handlerIDs (l.map (replaceById x)) = handlerIDs l := by
  induction l with
  | nil => rfl
  | cons a l ih =>
    simp only [handlerIDs, List.map_cons, List.cons.injEq] at ih ⊢
    refine ⟨?_, ih⟩
    by_cases ha : a.ID = x.ID <;> simp [replaceById, ha]

/-- The three cases of a bind on slots with valid IDs: a generated ID is
appended, a new ID is appended, an ID in use is replaced in its slot. -/
theorem bindSlots_cases {ε σ : Type} (s : List (Handler ε σ)) (x : Handler ε σ)
    (hv : ValidIDs s) :
    (x.ID = "" ∧ bindSlots s x =
        (s ++ [{ x with ID := generateHookId (handlerIDs s) }], generateHookId (handlerIDs s))) ∨
    (x.ID ≠ "" ∧ x.ID ∉ handlerIDs s ∧ bindSlots s x = (s ++ [x], x.ID)) ∨
    (x.ID ≠ "" ∧ x.ID ∈ handlerIDs s ∧ bindSlots s x = (s.map (replaceById x), x.ID)) := by
  by_cases h0 : x.ID = ""
  · left
    refine ⟨h0, ?_⟩
    have hfresh := generateHookId_not_mem (handlerIDs s)
    have hnone : replaceHandler { x with ID := generateHookId (handlerIDs s) } s = none :=
      replaceHandler_eq_none _ s hfresh
    simp only [bindSlots, h0, if_true]
    rw [show (s.map fun a => a.ID) = handlerIDs s from rfl, hnone]
  · right
    by_cases hm : x.ID ∈ handlerIDs s
    · right
      refine ⟨h0, hm, ?_⟩
      simp only [bindSlots, h0, if_false]
      rw [replaceHandler_eq_map x s hv.1 hm]
    · left
      refine ⟨h0, hm, ?_⟩
      simp only [bindSlots, h0, if_false]
      rw [replaceHandler_eq_none x s hm]

/-- Binding keeps the IDs distinct and non-empty. -/
theorem bindSlots_valid {ε σ : Type} (s : List (Handler ε σ)) (x : Handler ε σ)
    (hv : ValidIDs s) : ValidIDs (bindSlots s x).1 := by
  rcases bindSlots_cases s x hv with ⟨_, h⟩ | ⟨h0, hm, h⟩ | ⟨_, _, h⟩
  · rw [h]
    refine ⟨?_, ?_⟩
    · simp only [handlerIDs, List.map_append, List.map_cons, List.map_nil]
      exact nodup_append_singleton hv.1 (generateHookId_not_mem (handlerIDs s))
    · simp only [handlerIDs, List.map_append, List.map_cons, List.map_nil, List.mem_append,
        List.mem_singleton, not_or]
      exact ⟨hv.2, fun e => generateHookId_ne_empty _ e.symm⟩
  · rw [h]
    refine ⟨?_, ?_⟩
    · simp only [handlerIDs, List.map_append, List.map_cons, List.map_nil]
      exact nodup_append_singleton hv.1 hm
    · simp only [handlerIDs, List.map_append, List.map_cons, List.map_nil, List.mem_append,
        List.mem_singleton, not_or]
      exact ⟨hv.2, fun e => h0 e.symm⟩
  · rw [h]
    simpa [ValidIDs, handlerIDs_map_replaceById] using hv

theorem handlerIDs_insertionSort_perm {ε σ : Type} (s : List (Handler ε σ)) :
    (handlerIDs (s.insertionSort Handler.le)).Perm (handlerIDs s) :=
  (List.perm_insertionSort Handler.le s).map _

theorem ValidIDs.insertionSort {ε σ : Type} {s : List (Handler ε σ)} (hv : ValidIDs s) :
    ValidIDs (s.insertionSort Handler.le) :=
  ⟨(handlerIDs_insertionSort_perm s).nodup_iff.mpr hv.1,
    fun h => hv.2 ((handlerIDs_insertionSort_perm s).mem_iff.mp h)⟩

/-- A replacement that keeps the priority keeps every comparison. -/
theorem replaceById_le_iff {ε σ : Type} (x : Handler ε σ) (s : List (Handler ε σ))
    (hp : ∀ a ∈ s, a.ID = x.ID → a.Priority = x.Priority) :
    ∀ a ∈ s, ∀ b ∈ s, Handler.le a b ↔ Handler.le (replaceById x a) (replaceById x b) := by
  have key : ∀ a ∈ s, (replaceById x a).Priority = a.Priority := by
    intro a ha
    by_cases h : a.ID = x.ID
    · simp [replaceById, h, hp a ha h]
    · simp [replaceById, h]
  intro a ha b hb
  simp only [Handler.le, key a ha, key b hb]

/-- Inserting before handlers none of which comes first puts the handler
at the front. -/
theorem orderedInsert_of_forall_le {ε σ : Type} (a : Handler ε σ) :
    ∀ M : List (Handler ε σ), (∀ c ∈ M, Handler.le a c) →
      List.orderedInsert Handler.le a M = a :: M := by
  intro M h
  cases M with
  | nil => rfl
  | cons c M => simp [List.orderedInsert, h c (List.mem_cons_self _ _)]

/-- Removing handlers from a sorted registry commutes with the insertion of
a handler that stays. -/
theorem filter_orderedInsert {ε σ : Type} (p : Handler ε σ → Bool) (a : Handler ε σ) :
    ∀ L : List (Handler ε σ), L.Sorted Handler.le →
      (List.orderedInsert Handler.le a L).filter p =
        if p a then List.orderedInsert Handler.le a (L.filter p) else L.filter p := by
  intro L
  induction L with
  | nil => intro _; by_cases hp : p a <;> simp [hp]
  | cons b L ih =>
    intro hs
    have hs2 : L.Sorted Handler.le := hs.of_cons
    have hb : ∀ c ∈ L, Handler.le b c := fun c hc => List.rel_of_sorted_cons hs c hc
    by_cases hab : Handler.le a b
    · have hall : ∀ c ∈ (b :: L).filter p, Handler.le a c := by
        intro c hc
        have hc2 : c ∈ b :: L := List.mem_of_mem_filter hc
        rcases List.mem_cons.mp hc2 with rfl | hc3
        · exact hab
        · exact Int.le_trans hab (hb c hc3)
      rw [List.orderedInsert, if_pos hab]
      by_cases hp : p a
      · rw [if_pos hp, orderedInsert_of_forall_le a _ hall, List.filter_cons, if_pos hp]
      · rw [if_neg hp, List.filter_cons, if_neg hp]
    · rw [List.orderedInsert, if_neg hab]
      by_cases hpb : p b
      · rw [List.filter_cons, if_pos hpb, ih hs2, List.filter_cons, if_pos hpb]
        by_cases hp : p a
        · rw [if_pos hp, if_pos hp, List.orderedInsert, if_neg hab]
        · rw [if_neg hp, if_neg hp]
      · rw [List.filter_cons, if_neg hpb, ih hs2, List.filter_cons, if_neg hpb]

/-- The stable sort commutes with the removal of handlers. -/
theorem filter_insertionSort {ε σ : Type} (p : Handler ε σ → Bool) :
    ∀ l : List (Handler ε σ),
      (l.filter p).insertionSort Handler.le = (l.insertionSort Handler.le).filter p := by
  intro l
  induction l with
  | nil => rfl
  | cons a l ih =>
    rw [List.insertionSort, filter_orderedInsert p a _ (List.sorted_insertionSort _ _)]
    by_cases hp : p a
    · rw [if_pos hp, List.filter_cons, if_pos hp, List.insertionSort, ih]
    · rw [if_neg hp, List.filter_cons, if_neg hp, ih]

/-- Every hook a program can build has distinct non-empty IDs. -/
theorem Hook.Reachable.valid {ε σ : Type} {h : Hook ε σ} (hr : h.Reachable) :
    ValidIDs h.slots := by
  induction hr with
  | zero => exact ⟨List.nodup_nil, by simp [handlerIDs]⟩
  | bind h x _ ih => exact bindSlots_valid _ x ih
  | unbind h ids _ ih =>
    have hsub : (h.Unbind ids).slots.Sublist h.slots := List.filter_sublist _
    exact ⟨(hsub.map _).nodup ih.1, fun hm => ih.2 ((hsub.map _).subset hm)⟩
  | unbindAll h _ _ => exact ⟨List.nodup_nil, by simp [handlerIDs, Hook.UnbindAll]⟩

/-- The handlers of a hook a program can build have distinct non-empty IDs
and are sorted by priority. -/
theorem Hook.Reachable.valid_handlers {ε σ : Type} {h : Hook ε σ} (hr : h.Reachable) :
    ValidIDs h.handlers ∧ h.handlers.Sorted Handler.le :=
  ⟨hr.valid.insertionSort, List.sorted_insertionSort _ _⟩

theorem bindAll_reachable {ε σ : Type} (bs : List (Handler ε σ)) :
    ∀ h : Hook ε σ, h.Reachable → (Hook.bindAll h bs).Reachable := by
  induction bs with
  | nil => intro h hh; exact hh
  | cons b bs ih => intro h hh; exact ih _ (Hook.Reachable.bind h b hh)

/-- The slots after a sequence of binds on the zero hook are the handlers in
insertion order. -/
theorem bindAll_slots {ε σ : Type} (binds : List (Handler ε σ)) :
    ∀ h : Hook ε σ, (Hook.bindAll h binds).slots =
      binds.foldl (fun slots x => (bindSlots slots x).1) h.slots := by
  induction binds with
  | nil => intro h; rfl
  | cons x rest ih =>
    intro h
    simp only [Hook.bindAll, List.foldl_cons] at ih ⊢
    rw [ih]
    rfl

/-- Binds of new IDs, none of them empty, fill the slots in the order of
the binds. -/
theorem foldl_bindSlots_fresh {ε σ : Type} (binds : List (Handler ε σ)) :
    ∀ s : List (Handler ε σ), ValidIDs s → (∀ x ∈ binds, x.ID ≠ "") →
      (handlerIDs binds).Nodup → (∀ x ∈ binds, x.ID ∉ handlerIDs s) →
      binds.foldl (fun slots x => (bindSlots slots x).1) s = s ++ binds := by
  induction binds with
  | nil => intro s _ _ _ _; simp
  | cons x rest ih =>
    intro s hv hne hnd hfresh
    have hx0 : x.ID ≠ "" := hne x (List.mem_cons_self _ _)
    have hxs : x.ID ∉ handlerIDs s := hfresh x (List.mem_cons_self _ _)
    have hnd2 : x.ID ∉ handlerIDs rest ∧ (handlerIDs rest).Nodup := by
      simpa [handlerIDs] using hnd
    have hb : bindSlots s x = (s ++ [x], x.ID) := by
      rcases bindSlots_cases s x hv with ⟨h0, _⟩ | ⟨_, _, hb⟩ | ⟨_, hm, _⟩
      · exact absurd h0 hx0
      · exact hb
      · exact absurd hm hxs
    rw [List.foldl_cons, hb]
    have hv2 : ValidIDs (s ++ [x]) := by
      have := bindSlots_valid s x hv
      rwa [hb] at this
    rw [ih (s ++ [x]) hv2 (fun y hy => hne y (List.mem_cons_of_mem _ hy)) hnd2.2]
    · simp
    · intro y hy hmem
      simp only [handlerIDs, List.map_append, List.map_cons, List.map_nil, List.mem_append,
        List.mem_singleton] at hmem
      rcases hmem with hmem | hmem
      · exact hfresh y (List.mem_cons_of_mem _ hy) hmem
      · exact hnd2.1 (hmem ▸ List.mem_map_of_mem _ hy)

theorem mem_handlerIDs {ε σ : Type} {a : Handler ε σ} {l : List (Handler ε σ)} (h : a ∈ l) :
    a.ID ∈ handlerIDs l := List.mem_map_of_mem _ h

/-- With distinct IDs a handler is determined by its ID. -/
theorem eq_of_id_eq {ε σ : Type} {l : List (Handler ε σ)} (hn : (handlerIDs l).Nodup)
    {a b : Handler ε σ} (ha : a ∈ l) (hb : b ∈ l) (hab : a.ID = b.ID) : a = b :=
  List.inj_on_of_nodup_map hn ha hb hab

/-- Bind registers a handler with the ID it returns and the function and
priority given. -/
theorem Hook.Bind_mem {ε σ : Type} (h : Hook ε σ) (x : Handler ε σ)
    (hv : ValidIDs h.slots) :
    ∃ a ∈ (h.Bind x).1.handlers, a.ID = (h.Bind x).2 ∧ a.Func = x.Func ∧
      a.Priority = x.Priority := by
  simp only [Hook.Bind, Hook.handlers, List.mem_insertionSort]
  rcases bindSlots_cases h.slots x hv with ⟨_, hb⟩ | ⟨_, _, hb⟩ | ⟨_, hm, hb⟩
  · rw [hb]
    exact ⟨{ x with ID := generateHookId (handlerIDs h.slots) }, by simp, rfl, rfl, rfl⟩
  · rw [hb]; exact ⟨x, by simp, rfl, rfl, rfl⟩
  · rw [hb]
    obtain ⟨b, hb1, hb2⟩ := List.mem_map.mp hm
    exact ⟨x, List.mem_map.mpr ⟨b, hb1, by simp [replaceById, hb2]⟩, rfl, rfl, rfl⟩

/-- Unbinding a handler that was bound under an ID not in use gives back
the hook as it was before the bind. -/
theorem Hook.unbind_bind_fresh {ε σ : Type} (h : Hook ε σ) (x : Handler ε σ) (hr : h.Reachable)
    (hx : x.ID = "" ∨ x.ID ∉ handlerIDs h.slots) :
    (h.Bind x).1.Unbind [(h.Bind x).2] = h := by
  have hv := hr.valid
  obtain ⟨y, hy, hb⟩ : ∃ y : Handler ε σ, y.ID ∉ handlerIDs h.slots ∧
      bindSlots h.slots x = (h.slots ++ [y], y.ID) := by
    rcases bindSlots_cases h.slots x hv with ⟨_, hb⟩ | ⟨_, hm, hb⟩ | ⟨h0, hm, _⟩
    · exact ⟨_, generateHookId_not_mem (handlerIDs h.slots), hb⟩
    · exact ⟨x, hm, hb⟩
    · rcases hx with hx | hx
      · exact absurd hx h0
      · exact absurd hm hx
  have hkeep : ∀ a ∈ h.slots, (!([y.ID].contains a.ID)) = true := by
    intro a ha
    have : a.ID ≠ y.ID := fun e => hy (e ▸ mem_handlerIDs ha)
    simp [this]
  have hfilter : (h.slots ++ [y]).filter (fun a => !([y.ID].contains a.ID)) = h.slots := by
    rw [List.filter_append, List.filter_eq_self.mpr hkeep]
    simp
  cases h with
  | mk hs0 =>
    simp only [Hook.Bind, Hook.Unbind, hb] at hfilter ⊢
    rw [hfilter]

/-- The handlers of the hook without some IDs are the handlers without
them, in the same order. -/
theorem Hook.Unbind_handlers {ε σ : Type} (h : Hook ε σ) (ids : List String) :
    (h.Unbind ids).handlers = h.handlers.filter (fun a => !(ids.contains a.ID)) := by
  simp only [Hook.Unbind, Hook.handlers]
  exact filter_insertionSort _ _

/-! ## Trigger -/

theorem tagsOf_handlerLinks {ε σ : Type} (event : ε) (hs : List (Handler ε σ)) :
    tagsOf (handlerLinks event hs) = hs.map (fun a => LinkTag.handler a.ID) := by
  simp [tagsOf, handlerLinks]

theorem tagsOf_oneOffLinks {ε σ : Type} (event : ε) (fs : List (ε → Prog σ)) :
    ∀ i, tagsOf (oneOffLinks event i fs) = (List.range' i fs.length).map LinkTag.oneOff := by
  induction fs with
  | nil => intro i; rfl
  | cons f fs ih =>
    intro i
    simp only [oneOffLinks, tagsOf, List.map_cons, List.length_cons, List.range'_succ] at ih ⊢
    rw [ih (i + 1)]

theorem tagsOf_chain {ε σ : Type} (h : Hook ε σ) (event : ε) (oneOff : List (ε → Prog σ)) :
    tagsOf (h.chain event oneOff) =
      h.handlers.map (fun a => LinkTag.handler a.ID) ++
        (List.range oneOff.length).map LinkTag.oneOff := by
  rw [Hook.chain, tagsOf, List.map_append]
  rw [show List.map (fun l => l.tag) (handlerLinks event h.handlers) =
    tagsOf (handlerLinks event h.handlers) from rfl, tagsOf_handlerLinks]
  rw [show List.map (fun l => l.tag) (oneOffLinks event 0 oneOff) =
    tagsOf (oneOffLinks event 0 oneOff) from rfl, tagsOf_oneOffLinks, List.range_eq_range']

theorem mem_oneOffLinks {ε σ : Type} (event : ε) (fs : List (ε → Prog σ)) :
    ∀ i, ∀ l ∈ oneOffLinks event i fs, ∃ f ∈ fs, l.body = f event := by
  induction fs with
  | nil => intro i l hl; simp [oneOffLinks] at hl
  | cons f fs ih =>
    intro i l hl
    simp only [oneOffLinks, List.mem_cons] at hl
    rcases hl with rfl | hl
    · exact ⟨f, List.mem_cons_self _ _, rfl⟩
    · obtain ⟨g, hg, hb⟩ := ih (i + 1) l hl
      exact ⟨g, List.mem_cons_of_mem _ hg, hb⟩

/-- Every link of the chain is a registered handler or a one-off function,
applied to the event. -/
theorem mem_chain {ε σ : Type} (h : Hook ε σ) (event : ε) (oneOff : List (ε → Prog σ))
    (l : Link σ) (hl : l ∈ h.chain event oneOff) :
    (∃ a ∈ h.handlers, l.body = a.Func event) ∨ (∃ f ∈ oneOff, l.body = f event) := by
  rcases List.mem_append.mp hl with h1 | h1
  · left
    obtain ⟨a, ha, rfl⟩ := List.mem_map.mp h1
    exact ⟨a, ha, rfl⟩
  · right
    exact mem_oneOffLinks event oneOff 0 l h1

/-- The tags of a chain are pairwise distinct when the IDs are. -/
theorem nodup_tags {ids : List String} (hn : ids.Nodup) (n : Nat) :
    (ids.map LinkTag.handler ++ (List.range n).map LinkTag.oneOff).Nodup := by
  rw [List.nodup_append]
  refine ⟨hn.map (fun a b hab => by injection hab), (List.nodup_range n).map
    (fun a b hab => by injection hab), ?_⟩
  intro t h1 h2
  obtain ⟨a, _, rfl⟩ := List.mem_map.mp h1
  obtain ⟨b, _, hb⟩ := List.mem_map.mp h2
  cases hb

theorem validIDs_nil {ε σ : Type} : ValidIDs ([] : List (Handler ε σ)) :=
  ⟨List.nodup_nil, by simp [handlerIDs]⟩

/-- The tags of the chain of a hook a program can build are pairwise
distinct. -/
theorem nodup_chain {ε σ : Type} (h : Hook ε σ) (hr : h.Reachable) (event : ε)
    (oneOff : List (ε → Prog σ)) : (tagsOf (h.chain event oneOff)).Nodup := by
  rw [tagsOf_chain]
  have := nodup_tags hr.valid_handlers.1.1 oneOff.length
  simpa [handlerIDs] using this

/-- A Trigger call always ends.  It ends as the call of e.Next() on the
chain does, and when that call returns, Trigger returns the first failure
of the record. -/
theorem Hook.Trigger_run {ε σ : Type} (h : Hook ε σ) (event : ε) (oneOff : List (ε → Prog σ))
    (w : σ) :
    ∃ out0 out k,
      Event.Next (h.chain event oneOff).length
        { event := { next := h.chain event oneOff }, world := w, trace := [] } = some out0 ∧
      h.Trigger event oneOff w = some out ∧ out.state = out0.state ∧
      Advances k { event := { next := h.chain event oneOff }, world := w, trace := [] } out0 ∧
      out0.Settled ∧
      (∀ s, out0 = .halted s → out = .halted s) ∧
      (∀ r s, out0 = .returned r s → out = .returned (s.failures.head?.map Prod.snd) s) := by
  obtain ⟨out0, k, h1, adv, hs⟩ := Event.Next_advances (h.chain event oneOff).length
    { event := { next := h.chain event oneOff }, world := w, trace := [] } le_rfl
  have h2 : h.Trigger event oneOff w =
      match Event.Next (h.chain event oneOff).length
        { event := { next := h.chain event oneOff }, world := w, trace := [] } with
      | some (.returned _ st1) => some (.returned (st1.failures.head?.map Prod.snd) st1)
      | other => other := rfl
  rw [h1] at h2
  cases out0 with
  | halted s =>
    exact ⟨_, .halted s, k, h1, h2, rfl, adv, hs, fun s hs => hs, fun r s hs => (by cases hs)⟩
  | returned r s =>
    exact ⟨_, .returned (s.failures.head?.map Prod.snd) s, k, h1, h2, rfl, adv, hs,
      fun s hs => (by cases hs), fun r s hs => (by cases hs; rfl)⟩

/-- What a Trigger call returns is the first failure of the record. -/
theorem Hook.Trigger_result {ε σ : Type} (h : Hook ε σ) (event : ε) (oneOff : List (ε → Prog σ))
    (w : σ) (err : Err) (s : State σ) (ho : h.Trigger event oneOff w = some (.returned err s)) :
    err = s.failures.head?.map Prod.snd := by
  obtain ⟨out0, out, k, _, h2, _, _, _, hh, hret⟩ := Hook.Trigger_run h event oneOff w
  rw [ho] at h2
  cases Option.some.inj h2
  cases out0 with
  | halted s0 => exact absurd (hh s0 rfl) (by simp)
  | returned r s0 =>
    have := hret r s0 rfl
    cases this
    rfl

/-- The links a Trigger call invokes are an initial stretch of its chain,
and the failures it records are failures of links it invoked, each link at
most once, a link scheduled later first. -/
theorem Hook.Trigger_trace {ε σ : Type} (h : Hook ε σ) (event : ε)
    (oneOff : List (ε → Prog σ)) (w : σ) :
    ∃ out k, h.Trigger event oneOff w = some out ∧ k ≤ (h.chain event oneOff).length ∧
      out.state.trace = tagsOf ((h.chain event oneOff).take k) ∧
      List.Sublist (out.state.failures.map Prod.fst) out.state.trace.reverse := by
  obtain ⟨out0, out, k, _, h2, hst, adv, _, _, _⟩ := Hook.Trigger_run h event oneOff w
  obtain ⟨hk, ht, _, F, hf, hsub⟩ := adv
  simp only [List.nil_append] at ht hf
  refine ⟨out, k, h2, hk, by rw [hst, ht], ?_⟩
  rw [hst, hf, ht]
  exact hsub

/-- The links a Trigger call invokes are links of its chain. -/
theorem Hook.Trigger_trace_subset {ε σ : Type} (h : Hook ε σ) (event : ε)
    (oneOff : List (ε → Prog σ)) (w : σ) (out : Outcome σ)
    (ho : h.Trigger event oneOff w = some out) :
    ∀ t ∈ out.state.trace, t ∈ tagsOf (h.chain event oneOff) := by
  obtain ⟨out2, k, h2, _, htr, _⟩ := Hook.Trigger_trace h event oneOff w
  rw [ho] at h2
  cases Option.some.inj h2
  intro t ht
  rw [htr] at ht
  obtain ⟨l, hl, rfl⟩ := List.mem_map.mp ht
  exact List.mem_map_of_mem _ (List.mem_of_mem_take hl)

/-- When the links of pre each invoke the continuation, in the run at hand,
Trigger ends as the call of e.Next() that starts at the links after them
does. -/
theorem Hook.Trigger_prefix {ε σ : Type} (h : Hook ε σ) (event : ε) (oneOff : List (ε → Prog σ))
    (w w1 : σ) (pre rest : List (Link σ)) (hchain : h.chain event oneOff = pre ++ rest)
    (hw : entryWorld pre w = some w1) :
    ∃ outR out kR,
      Event.Next (h.chain event oneOff).length
        { event := { next := rest }, world := w1, trace := tagsOf pre } = some outR ∧
      Advances kR { event := { next := rest }, world := w1, trace := tagsOf pre } outR ∧
      outR.Settled ∧
      h.Trigger event oneOff w = some out ∧
      (∀ s, outR = .halted s → out = .halted s) ∧
      ((∀ l ∈ pre, l.body.NoHalt) → ∀ r s, outR = .returned r s →
        ∃ r2 s2, out = .returned r2 s2) ∧
      out.state.trace = outR.state.trace ∧
      ∃ G : List (LinkTag × String), out.state.failures = outR.state.failures ++ G ∧
        List.Sublist (G.map Prod.fst) (tagsOf pre).reverse := by
  obtain ⟨outR, out1, hR, h1, hh, hret, ht, G, hf, hsub⟩ := Event.Next_prefix rest pre
    (h.chain event oneOff).length
    { event := { next := h.chain event oneOff }, world := w, trace := [] } w1 hchain hw
    (by rw [hchain])
  simp only [List.nil_append] at hR
  obtain ⟨outR2, kR, hR2, advR, hsR⟩ := Event.Next_advances (h.chain event oneOff).length
    { event := { next := rest }, world := w1, trace := tagsOf pre }
    (by rw [hchain]; simp)
  rw [hR] at hR2
  cases Option.some.inj hR2
  obtain ⟨out0, out, k, h0, h2, hst, _, _, hh0, hret0⟩ := Hook.Trigger_run h event oneOff w
  rw [h1] at h0
  cases Option.some.inj h0
  refine ⟨outR, out, kR, hR, advR, hsR, h2, ?_, ?_, by rw [hst, ht], G, by rw [hst, hf], hsub⟩
  · intro s hs
    exact hh0 s (hh s hs)
  · intro hn r s hs
    obtain ⟨r2, s2, e2⟩ := hret hn r s hs
    exact ⟨_, _, hret0 r2 s2 e2⟩

/-- When every link invokes its continuation, in the run at hand, Trigger
ends having invoked every link of the chain once, in chain order. -/
theorem Hook.Trigger_all {ε σ : Type} (h : Hook ε σ) (event : ε) (oneOff : List (ε → Prog σ))
    (w : σ) (hall : (entryWorld (h.chain event oneOff) w).isSome) :
    ∃ out, h.Trigger event oneOff w = some out ∧
      out.state.trace = tagsOf (h.chain event oneOff) := by
  obtain ⟨w1, hw⟩ := Option.isSome_iff_exists.mp hall
  obtain ⟨outR, out, kR, hR, _, _, h2, _, _, ht, _⟩ := Hook.Trigger_prefix h event oneOff w w1
    (h.chain event oneOff) [] (by simp) hw
  rw [Event.Next_nil _ _ rfl] at hR
  cases Option.some.inj hR
  exact ⟨out, h2, ht⟩

/-- When the link H is reached, in the run at hand, and ends without
invoking its continuation, Trigger ends having invoked the links up to H
and no other. -/
theorem Hook.Trigger_stop {ε σ : Type} (h : Hook ε σ) (event : ε) (oneOff : List (ε → Prog σ))
    (w wH : σ) (pre post : List (Link σ)) (H : Link σ)
    (hchain : h.chain event oneOff = pre ++ H :: post)
    (hw : entryWorld pre w = some wH) (hH : H.body.toNext wH = none) :
    ∃ out, h.Trigger event oneOff w = some out ∧ out.state.trace = tagsOf (pre ++ [H]) := by
  obtain ⟨outR, out, kR, hR, _, _, h2, _, _, ht, _⟩ := Hook.Trigger_prefix h event oneOff w wH
    pre (H :: post) hchain hw
  refine ⟨out, h2, ?_⟩
  rw [ht]
  obtain ⟨g, hg⟩ : ∃ g, (h.chain event oneOff).length = g + 1 :=
    ⟨(h.chain event oneOff).length - 1, by rw [hchain]; simp; omega⟩
  rw [hg] at hR
  obtain ⟨out3, h3, he3, ht3, hf3⟩ := Prog.exec_toNext_none (Event.Next g) H.body
    { event := { next := post }, world := wH, trace := tagsOf pre ++ [H.tag] } hH
  obtain ⟨out1, h1, _, _, _, _, ht1, _⟩ := Event.Next_step g
    { event := { next := H :: post }, world := wH, trace := tagsOf pre } H post rfl out3 0 h3
    (Advances.zero _ _ he3 ht3 hf3)
  rw [hR] at h1
  cases Option.some.inj h1
  rw [ht1, ht3]
  simp [tagsOf]

/-- A run in which some link of pre does not invoke its continuation has a
first such link. -/
theorem entryWorld_none_split {σ : Type} : ∀ (pre : List (Link σ)) (w : σ),
    entryWorld pre w = none →
      ∃ pre1 X pre2 wX, pre = pre1 ++ X :: pre2 ∧ entryWorld pre1 w = some wX ∧
        X.body.toNext wX = none := by
  intro pre
  induction pre with
  | nil => intro w h; simp [entryWorld] at h
  | cons a pre ih =>
    intro w h
    cases ha : a.body.toNext w with
    | none => exact ⟨[], a, pre, w, rfl, rfl, ha⟩
    | some wa =>
      simp only [entryWorld, ha, Option.some_bind] at h
      obtain ⟨pre1, X, pre2, wX, h1, h2, h3⟩ := ih wa h
      exact ⟨a :: pre1, X, pre2, wX, by rw [h1]; rfl, by simp [entryWorld, ha, h2], h3⟩

/-! ## The dispatch order -/

theorem bindAll_handlers {ε σ : Type} (binds : List (Handler ε σ)) :
    (Hook.bindAll { slots := [] } binds).handlers = specDispatchOrder binds := by
  simp only [Hook.handlers, specDispatchOrder, insertionOrder, bindAll_slots]

/-- C1: for every sequence of Bind/BindFunc calls on the zero hook and every
list of one-off functions, the handlers are in ascending (priority,
insertion order) order: sorted by ascending priority, the handlers of equal
priority in insertion order (a rebound ID keeps its slot whatever its new
priority, and binds of distinct IDs fill the slots in bind order); and if,
in the run at hand, every link invokes its continuation, Trigger ends
having invoked every registered handler exactly once, in that order, and
then the one-off functions exactly once in the order given. -/
theorem c1_trigger_order {ε σ : Type} (binds : List (Handler ε σ))
    (oneOff : List (ε → Prog σ)) (event : ε) (w : σ)
    (hall : (entryWorld ((Hook.bindAll { slots := [] } binds).chain event oneOff) w).isSome) :
    (Hook.bindAll { slots := [] } binds).handlers.Sorted Handler.le ∧
    (Hook.bindAll { slots := [] } binds).handlers = specDispatchOrder binds ∧
    (Hook.bindAll { slots := [] } binds).handlers.Perm (insertionOrder binds) ∧
    (∀ a b, List.Sublist [a, b] (insertionOrder binds) → a.Priority ≤ b.Priority →
      List.Sublist [a, b] (Hook.bindAll { slots := [] } binds).handlers) ∧
    ((∀ x ∈ binds, x.ID ≠ "") → (handlerIDs binds).Nodup → insertionOrder binds = binds) ∧
    ∃ out, (Hook.bindAll { slots := [] } binds).Trigger event oneOff w = some out ∧
      out.state.trace =
        (Hook.bindAll { slots := [] } binds).handlers.map (fun a => LinkTag.handler a.ID) ++
          (List.range oneOff.length).map LinkTag.oneOff ∧
      out.state.trace.Nodup := by
  have hr := bindAll_reachable binds { slots := [] } Hook.Reachable.zero
  have hh := bindAll_handlers binds
  refine ⟨hr.valid_handlers.2, hh, ?_, ?_, ?_, ?_⟩
  · rw [hh]
    exact List.perm_insertionSort _ _
  · intro a b hs hab
    rw [hh]
    exact List.pair_sublist_insertionSort hab hs
  · intro hne hnd
    have := foldl_bindSlots_fresh binds [] validIDs_nil hne hnd (by simp [handlerIDs])
    simpa [insertionOrder] using this
  · obtain ⟨out, h1, h2⟩ := Hook.Trigger_all _ event oneOff w hall
    have hnd := nodup_chain _ hr event oneOff
    rw [tagsOf_chain] at h2 hnd
    exact ⟨out, h1, h2, by rw [h2]; exact hnd⟩

/-- C1, witness: the binds of TestHookAddHandlerAndAdd (priorities 0, 0, 0,
-2, -1, 0, 0, with the rebind of the third handler) and one one-off
function; every link invokes its continuation and the handlers emit
4 5 1 2 3' 6 7 before the one-off emits 8.  And after binding a, b, c with
priorities 1, 0, 1 and rebinding b with priority 1, the handlers run in
insertion order: a, b, c. -/
theorem c1_trigger_order_witness :
    (entryWorld ((Hook.bindAll { slots := [] } testBinds).chain ()
      [fun _ => emit "8" Prog.returnNext]) "").isSome ∧
    ((Hook.bindAll { slots := [] } testBinds).Trigger ()
        [fun _ => emit "8" Prog.returnNext] "").map (fun out => out.state.world) =
      some "45123'678" ∧
    handlerIDs (Hook.bindAll { slots := [] } rebindBinds).handlers = ["a", "b", "c"] ∧
    ((Hook.bindAll { slots := [] } rebindBinds).Trigger () [] ()).map
      (fun out => out.state.trace) =
        some [LinkTag.handler "a", LinkTag.handler "b", LinkTag.handler "c"] ∧
    (∃ out, (Hook.bindAll { slots := [] } testBinds).Trigger ()
        [fun _ => emit "8" Prog.returnNext] "" = some out ∧
      out.state.trace =
        (Hook.bindAll { slots := [] } testBinds).handlers.map
            (fun a => LinkTag.handler a.ID) ++
          (List.range [fun (_ : Unit) => emit "8" Prog.returnNext].length).map LinkTag.oneOff ∧
      out.state.trace.Nodup) :=
  ⟨by decide, by decide, by decide, by decide,
    (c1_trigger_order testBinds [fun _ => emit "8" Prog.returnNext] () "" (by decide)).2.2.2.2.2⟩

/-! ## A link that does not continue -/

/-- C2: for every Trigger chain of a hook a program can build (registered
handlers followed by one-off functions) and every link H in it, if H, in the
run at hand, ends without invoking the event's continuation (whenever that
run reaches H, in the world wH), then Trigger ends, the links invoked are an
initial stretch of the chain that ends at H at the latest (at H when H is
reached), and no link scheduled after H, registered or one-off, is
invoked. -/
theorem c2_stop_chain {ε σ : Type} (h : Hook ε σ) (event : ε) (oneOff : List (ε → Prog σ))
    (w : σ) (pre post : List (Link σ)) (H : Link σ)
    (hr : h.Reachable)
    (hchain : h.chain event oneOff = pre ++ H :: post)
    (hH : ∀ wH, entryWorld pre w = some wH → H.body.toNext wH = none) :
    ∃ out k, h.Trigger event oneOff w = some out ∧ k ≤ pre.length + 1 ∧
      out.state.trace = (tagsOf (pre ++ [H])).take k ∧
      (∀ l ∈ post, l.tag ∉ out.state.trace) ∧
      (∀ wH, entryWorld pre w = some wH → out.state.trace = tagsOf (pre ++ [H])) := by
  have key : ∃ out k, h.Trigger event oneOff w = some out ∧ k ≤ pre.length + 1 ∧
      out.state.trace = (tagsOf (pre ++ [H])).take k ∧
      (∀ wH, entryWorld pre w = some wH → out.state.trace = tagsOf (pre ++ [H])) := by
    cases he : entryWorld pre w with
    | some wH =>
      obtain ⟨out, h1, h2⟩ := Hook.Trigger_stop h event oneOff w wH pre post H hchain he
        (hH wH he)
      refine ⟨out, pre.length + 1, h1, le_rfl, ?_, fun _ _ => h2⟩
      rw [h2, List.take_of_length_le]
      simp [tagsOf]
    | none =>
      obtain ⟨pre1, X, pre2, wX, hp, hw, hX⟩ := entryWorld_none_split pre w he
      have hchain2 : h.chain event oneOff = pre1 ++ X :: (pre2 ++ H :: post) := by
        rw [hchain, hp]; simp
      obtain ⟨out, h1, h2⟩ := Hook.Trigger_stop h event oneOff w wX pre1 _ X hchain2 hw hX
      refine ⟨out, pre1.length + 1, h1, by rw [hp]; simp, ?_, fun wH hwH => by cases hwH⟩
      rw [h2, hp]
      simp only [tagsOf, List.map_append, List.map_cons, List.map_nil, List.append_assoc,
        List.cons_append]
      rw [show List.map (fun l => l.tag) pre1 ++ X.tag ::
            (List.map (fun l => l.tag) pre2 ++ [H.tag]) =
          (List.map (fun l => l.tag) pre1 ++ [X.tag]) ++
            (List.map (fun l => l.tag) pre2 ++ [H.tag]) by simp,
        List.take_left' (by simp)]
  obtain ⟨out, k, h1, hk, htr, hreach⟩ := key
  refine ⟨out, k, h1, hk, htr, ?_, hreach⟩
  intro l hl hmem
  have hnd := nodup_chain h hr event oneOff
  rw [hchain, show pre ++ H :: post = (pre ++ [H]) ++ post by simp, tagsOf, List.map_append,
    List.nodup_append] at hnd
  rw [htr] at hmem
  exact hnd.2.2 (List.mem_of_mem_take hmem) (List.mem_map_of_mem _ hl)

/-- C2, witness: the chain of TestHookAddHandlerAndAdd, where the one-off
"9" returns nil without calling e.Next(): the one-off "10" is not invoked
and the calls are 4 5 1 2 3' 6 7 8 9.  A handler before the stopping link
that calls e.Next() a second time does not start the chain again: the calls
are r 9. -/
theorem c2_stop_chain_witness :
    testHook.Reachable ∧
    (testHook.Trigger () testOneOff "").map (fun out => out.state.world) = some "45123'6789" ∧
    (twiceHook.Trigger () stopOneOff "").map (fun out => (out.state.trace, out.state.world)) =
      some ([LinkTag.handler "h", LinkTag.oneOff 0], "r9") ∧
    ∃ out k, testHook.Trigger () testOneOff "" = some out ∧ k ≤ 8 + 1 ∧
      out.state.trace = (tagsOf (List.take 8 (testHook.chain () testOneOff) ++
        [{ tag := LinkTag.oneOff 1, body := emit "9" (Prog.ret none) }])).take k ∧
      (∀ l ∈ [({ tag := LinkTag.oneOff 2, body := emit "10" Prog.returnNext } : Link String)],
        l.tag ∉ out.state.trace) ∧
      (∀ wH, entryWorld (List.take 8 (testHook.chain () testOneOff)) "" = some wH →
        out.state.trace = tagsOf (List.take 8 (testHook.chain () testOneOff) ++
          [{ tag := LinkTag.oneOff 1, body := emit "9" (Prog.ret none) }])) := by
  have hr : testHook.Reachable :=
    bindAll_reachable testBinds { slots := [] } Hook.Reachable.zero
  refine ⟨hr, by decide, by decide, ?_⟩
  exact c2_stop_chain testHook () testOneOff ""
    (List.take 8 (testHook.chain () testOneOff))
    [{ tag := LinkTag.oneOff 2, body := emit "10" Prog.returnNext }]
    { tag := LinkTag.oneOff 1, body := emit "9" (Prog.ret none) } hr rfl
    (fun _ _ => rfl)

/-! ## Failures -/

/-- With pairwise distinct first components, the second component is
determined by the first. -/
theorem snd_eq_of_nodup_fst {F : List (LinkTag × String)} (hn : (F.map Prod.fst).Nodup)
    {t : LinkTag} {f1 f2 : String} (h1 : (t, f1) ∈ F) (h2 : (t, f2) ∈ F) : f1 = f2 := by
  have := List.inj_on_of_nodup_map hn h1 h2 rfl
  exact (Prod.mk.inj this).2

/-- C3, as amended: for every Trigger chain of a hook a program can build
and every link H of it, Trigger ends, and of the run at hand the following
holds.  If H is reached, invokes its continuation, and every link after H
invokes its continuation, all links of the chain are invoked.  If H returns
a failure f, the record of failures starts with a failure of H or of a link
scheduled after H, it is f when no link after H returned a failure, and
Trigger, when it returns, returns that first failure: it does not return
nil.  If no link returns a failure, Trigger, when it returns, returns nil.
And Trigger returns when no link has a step that control does not come back
from. -/
theorem c3_failure_returned {ε σ : Type} (h : Hook ε σ) (event : ε)
    (oneOff : List (ε → Prog σ)) (w : σ) (pre post : List (Link σ)) (H : Link σ)
    (hr : h.Reachable) (hchain : h.chain event oneOff = pre ++ H :: post) :
    ∃ out, h.Trigger event oneOff w = some out ∧
      (∀ wH w1, entryWorld pre w = some wH → H.body.toNext wH = some w1 →
        (entryWorld post w1).isSome → out.state.trace = tagsOf (h.chain event oneOff)) ∧
      (∀ f, (H.tag, f) ∈ out.state.failures →
        ∃ t f1, out.state.failures.head? = some (t, f1) ∧ t ∈ tagsOf (H :: post) ∧
          ((∀ l ∈ post, ∀ f2, (l.tag, f2) ∉ out.state.failures) → f1 = f) ∧
          ∀ err s, out = .returned err s → err = some f1) ∧
      (out.state.failures = [] → ∀ err s, out = .returned err s → err = none) ∧
      ((∀ l ∈ h.chain event oneOff, l.body.NoHalt) → ∃ err s, out = .returned err s) := by
  obtain ⟨out, k, ho, hk, htr, hsub⟩ := Hook.Trigger_trace h event oneOff w
  have hnd := nodup_chain h hr event oneOff
  have hres : ∀ err s, out = .returned err s → err = s.failures.head?.map Prod.snd := by
    intro err s hs
    rw [hs] at ho
    exact Hook.Trigger_result h event oneOff w err s ho
  have hHpre : H.tag ∉ tagsOf pre := by
    intro hm
    rw [hchain, tagsOf, List.map_append, List.nodup_append] at hnd
    exact hnd.2.2 hm (by simp)
  have hfnd : (out.state.failures.map Prod.fst).Nodup := by
    refine List.Nodup.sublist hsub (List.nodup_reverse.mpr ?_)
    rw [htr]
    exact List.Nodup.sublist ((List.take_sublist _ _).map _) hnd
  refine ⟨out, ho, ?_, ?_, ?_, ?_⟩
  · intro wH w1 hw hH hpost
    have hall : (entryWorld (h.chain event oneOff) w).isSome := by
      rw [hchain, entryWorld_append, hw]
      simp only [Option.some_bind, entryWorld, hH]
      exact hpost
    obtain ⟨out2, h2, ht2⟩ := Hook.Trigger_all h event oneOff w hall
    rw [ho] at h2
    cases Option.some.inj h2
    exact ht2
  · intro f hf
    have hhead : ∃ t f1, out.state.failures.head? = some (t, f1) ∧ t ∈ tagsOf (H :: post) := by
      cases he : entryWorld pre w with
      | some wH =>
        obtain ⟨outR, out2, kR, _, advR, _, h2, _, _, _, G, hG, hGsub⟩ :=
          Hook.Trigger_prefix h event oneOff w wH pre (H :: post) hchain he
        rw [ho] at h2
        cases Option.some.inj h2
        obtain ⟨_, _, _, F, hF, hFsub⟩ := advR
        simp only [List.nil_append] at hF
        rw [hG, hF] at hf ⊢
        rcases List.mem_append.mp hf with hf1 | hf1
        · cases F with
          | nil => simp at hf1
          | cons p F =>
            refine ⟨p.1, p.2, rfl, ?_⟩
            have hp : p.1 ∈ (tagsOf (List.take kR (H :: post))).reverse :=
              hFsub.subset (by simp)
            rw [List.mem_reverse] at hp
            obtain ⟨l, hl, hlt⟩ := List.mem_map.mp hp
            exact List.mem_map.mpr ⟨l, List.mem_of_mem_take hl, hlt⟩
        · have : H.tag ∈ (tagsOf pre).reverse :=
            hGsub.subset (List.mem_map.mpr ⟨(H.tag, f), hf1, rfl⟩)
          exact absurd (List.mem_reverse.mp this) hHpre
      | none =>
        obtain ⟨pre1, X, pre2, wX, hp, hw, hX⟩ := entryWorld_none_split pre w he
        have hchain2 : h.chain event oneOff = pre1 ++ X :: (pre2 ++ H :: post) := by
          rw [hchain, hp]; simp
        obtain ⟨out2, h2, ht2⟩ := Hook.Trigger_stop h event oneOff w wX pre1 _ X hchain2 hw hX
        rw [ho] at h2
        cases Option.some.inj h2
        have hm : H.tag ∈ out.state.trace.reverse :=
          hsub.subset (List.mem_map.mpr ⟨(H.tag, f), hf, rfl⟩)
        rw [List.mem_reverse, ht2] at hm
        have : H.tag ∈ tagsOf pre := by
          rw [hp]
          simp only [tagsOf, List.map_append, List.map_cons, List.map_nil, List.mem_append,
            List.mem_cons, List.mem_singleton, List.not_mem_nil, or_false] at hm ⊢
          rcases hm with hm | hm
          · exact Or.inl hm
          · exact Or.inr (Or.inl hm)
        exact absurd this hHpre
    obtain ⟨t, f1, hh, ht⟩ := hhead
    have hmem1 : (t, f1) ∈ out.state.failures := List.mem_of_mem_head? hh
    refine ⟨t, f1, hh, ht, ?_, ?_⟩
    · intro hno
      simp only [tagsOf, List.map_cons, List.mem_cons] at ht
      rcases ht with ht | ht
      · subst ht
        exact snd_eq_of_nodup_fst hfnd hmem1 hf
      · obtain ⟨l, hl, hlt⟩ := List.mem_map.mp ht
        exact absurd (hlt ▸ hmem1) (hno l hl f1)
    · intro err s hs
      rw [hres err s hs]
      have : s = out.state := by rw [hs]; rfl
      rw [this, hh]
      rfl
  · intro hnil err s hs
    rw [hres err s hs]
    have : s = out.state := by rw [hs]; rfl
    rw [this, hnil]
    rfl
  · intro hall
    obtain ⟨out0, out2, _, h0, h2, _, _, _, _, hret⟩ := Hook.Trigger_run h event oneOff w
    rw [ho] at h2
    cases Option.some.inj h2
    obtain ⟨r, s, h3⟩ := Event.Next_noHalt (h.chain event oneOff).length
      { event := { next := h.chain event oneOff }, world := w, trace := [] } hall le_rfl
    rw [h0] at h3
    cases Option.some.inj h3
    exact ⟨_, _, hret r s rfl⟩

/-- C3, counterexample: in TestHookAddHandlerAndAdd handler "7" (the seventh
link, with the ID hhhhhhh) invokes its continuation and then returns the
failure "test"; the one-off "10" (the tenth link) is scheduled after it and
is not invoked, because the one-off "9" does not invoke its continuation;
the calls are 4 5 1 2 3' 6 7 8 9 and Trigger returns "test". -/
theorem c3_counterexample :
    tagsOf (testHook.chain () testOneOff) =
      [LinkTag.handler "hhhh", LinkTag.handler "hhhhh", LinkTag.handler "h",
       LinkTag.handler "hh", LinkTag.handler "hhh", LinkTag.handler "hhhhhh",
       LinkTag.handler "hhhhhhh", LinkTag.oneOff 0, LinkTag.oneOff 1, LinkTag.oneOff 2] ∧
    entryWorld (List.take 6 (testHook.chain () testOneOff)) "" = some "45123'6" ∧
    ((testHook.chain () testOneOff)[6]?).map (fun l => l.body.toNext "45123'6") =
      some (some "45123'67") ∧
    (testHook.Trigger () testOneOff "").map
      (fun out => (out.result, out.state.world, out.state.failures.head?)) =
        some (some (some "test"), "45123'6789", some (LinkTag.handler "hhhhhhh", "test")) ∧
    (testHook.Trigger () testOneOff "").map (fun out => out.state.trace) =
      some [LinkTag.handler "hhhh", LinkTag.handler "hhhhh", LinkTag.handler "h",
            LinkTag.handler "hh", LinkTag.handler "hhh", LinkTag.handler "hhhhhh",
            LinkTag.handler "hhhhhhh", LinkTag.oneOff 0, LinkTag.oneOff 1] ∧
    (testHook.Trigger () testOneOff "").map
      (fun out => decide (LinkTag.oneOff 2 ∈ out.state.trace)) = some false := by
  refine ⟨by decide, by decide, by decide, by decide, by decide, by decide⟩

/-- C3, witness: the scenarios of TestHookTriggerErrorPropagation. With
the error returned by the second of three handlers after e.Next(), all
three handlers are invoked and Trigger returns that error; it does so too
when the handler before drops what e.Next() returned; without an error
Trigger returns nil. -/
theorem c3_failure_returned_witness :
    errorHook.Reachable ∧
    (errorHook.Trigger () [] ()).map (fun out => (out.result, out.state.trace)) =
      some (some (some "test"),
        [LinkTag.handler "h", LinkTag.handler "hh", LinkTag.handler "hhh"]) ∧
    (swallowHook.Trigger () [] ()).map (fun out => (out.result, out.state.trace)) =
      some (some (some "test"), [LinkTag.handler "h", LinkTag.handler "hh"]) ∧
    (okHook.Trigger () [] ()).map (fun out => out.result) = some (some none) ∧
    (∃ out, errorHook.Trigger () [] () = some out ∧
      (∀ f, (LinkTag.handler "hh", f) ∈ out.state.failures →
        ∃ t f1, out.state.failures.head? = some (t, f1) ∧
          ∀ err s, out = .returned err s → err = some f1) ∧
      ((∀ l ∈ errorHook.chain () [], l.body.NoHalt) → ∃ err s, out = .returned err s)) := by
  have hr : errorHook.Reachable := bindAll_reachable _ { slots := [] } Hook.Reachable.zero
  refine ⟨hr, by decide, by decide, by decide, ?_⟩
  obtain ⟨out, h1, _, h3, _, h5⟩ := c3_failure_returned errorHook () [] ()
    [{ tag := LinkTag.handler "h", body := Prog.returnNext }]
    [{ tag := LinkTag.handler "hhh", body := Prog.returnNext }]
    { tag := LinkTag.handler "hh", body := Prog.next (fun _ => Prog.ret (some "test")) }
    hr rfl
  refine ⟨out, h1, ?_, h5⟩
  intro f hf
  obtain ⟨t, f1, ha, _, _, hb⟩ := h3 f hf
  exact ⟨t, f1, ha, hb⟩

/-! ## Rebinding an ID -/

theorem mem_handlerIDs_handlers {ε σ : Type} (h : Hook ε σ) (id : String) :
    id ∈ handlerIDs h.handlers ↔ id ∈ handlerIDs h.slots :=
  (handlerIDs_insertionSort_perm h.slots).mem_iff

/-- C4: for every hook a program can build and every handler x whose ID is
the ID of a handler already bound, Bind returns that ID, leaves Length()
unchanged, keeps the IDs of the hook pairwise distinct (they are the IDs it
had), puts x in the slot of the handler with its ID (function and priority)
and re-sorts; the only handler with that ID is then x; and when the
priority is unchanged every handler, x included, is at the position it had
in the dispatch order. -/
theorem c4_rebind {ε σ : Type} (h : Hook ε σ) (x : Handler ε σ)
    (hr : h.Reachable) (hx : x.ID ∈ handlerIDs h.handlers) :
    (h.Bind x).2 = x.ID ∧
    (h.Bind x).1.Length = h.Length ∧
    (handlerIDs (h.Bind x).1.handlers).Nodup ∧
    (handlerIDs (h.Bind x).1.handlers).Perm (handlerIDs h.handlers) ∧
    (h.Bind x).1.slots = h.slots.map (replaceById x) ∧
    (h.Bind x).1.handlers = (h.slots.map (replaceById x)).insertionSort Handler.le ∧
    x ∈ (h.Bind x).1.handlers ∧
    (∀ b ∈ (h.Bind x).1.handlers, b.ID = x.ID → b = x) ∧
    ((∀ a ∈ h.handlers, a.ID = x.ID → a.Priority = x.Priority) →
      (h.Bind x).1.handlers = h.handlers.map (replaceById x)) := by
  have hv := hr.valid
  have hxs : x.ID ∈ handlerIDs h.slots := (mem_handlerIDs_handlers h x.ID).mp hx
  have hcase : bindSlots h.slots x = (h.slots.map (replaceById x), x.ID) := by
    rcases bindSlots_cases h.slots x hv with ⟨h0, _⟩ | ⟨_, hm, _⟩ | ⟨_, _, hb⟩
    · exact absurd (h0 ▸ hxs) hv.2
    · exact absurd hxs hm
    · exact hb
  have hs : (h.Bind x).1.slots = h.slots.map (replaceById x) := by
    simp only [Hook.Bind, hcase]
  have hh : (h.Bind x).1.handlers = (h.slots.map (replaceById x)).insertionSort Handler.le := by
    simp only [Hook.handlers, hs]
  have hperm : (handlerIDs (h.Bind x).1.handlers).Perm (handlerIDs h.handlers) := by
    rw [hh]
    refine (handlerIDs_insertionSort_perm _).trans ?_
    rw [handlerIDs_map_replaceById]
    exact (handlerIDs_insertionSort_perm _).symm
  have hmemx : x ∈ h.slots.map (replaceById x) := by
    obtain ⟨a, ha, hax⟩ := List.mem_map.mp hxs
    exact List.mem_map.mpr ⟨a, ha, by simp [replaceById, hax]⟩
  refine ⟨by simp only [Hook.Bind, hcase], ?_, hperm.nodup_iff.mpr hr.valid_handlers.1.1, hperm,
    hs, hh, ?_, ?_, ?_⟩
  · simp only [Hook.Length, hh, List.length_insertionSort, List.length_map]
    simp only [Hook.handlers, List.length_insertionSort]
  · rw [hh]; exact (List.mem_insertionSort Handler.le).mpr hmemx
  · intro b hb hbx
    rw [hh] at hb
    obtain ⟨a, _, hab⟩ := List.mem_map.mp ((List.mem_insertionSort Handler.le).mp hb)
    by_cases hax : a.ID = x.ID
    · simpa [replaceById, hax] using hab.symm
    · have : b = a := by simpa [replaceById, hax] using hab.symm
      exact absurd (this ▸ hbx) hax
  · intro hp
    have hp2 : ∀ a ∈ h.slots, a.ID = x.ID → a.Priority = x.Priority :=
      fun a ha => hp a ((List.mem_insertionSort Handler.le).mpr ha)
    rw [hh, Hook.handlers, ← List.map_insertionSort Handler.le Handler.le (replaceById x)
      h.slots (replaceById_le_iff x h.slots hp2)]

/-- C4, witness: in TestHookAddHandlerAndAdd the ID of handler "3" is bound
again with the same priority; the hook keeps 3 handlers, the new function
is in the third position, and after all binds there are 7 handlers and the
calls are 4 5 1 2 3' 6 7. -/
theorem c4_rebind_witness :
    (Hook.bindAll { slots := [] } (testBinds.take 3)).Reachable ∧
    "hhh" ∈ handlerIDs (Hook.bindAll { slots := [] } (testBinds.take 3)).handlers ∧
    ((Hook.bindAll { slots := [] } (testBinds.take 3)).Bind
      { ID := "hhh", Priority := 0, Func := fun _ => emit "3'" Prog.returnNext }).1.Length = 3 ∧
    handlerIDs ((Hook.bindAll { slots := [] } (testBinds.take 3)).Bind
      { ID := "hhh", Priority := 0, Func := fun _ => emit "3'" Prog.returnNext }).1.handlers =
        ["h", "hh", "hhh"] ∧
    ((Hook.bindAll { slots := [] } (testBinds.take 3)).Bind
      { ID := "hhh", Priority := 0, Func := fun _ => emit "3'" Prog.returnNext }).1.handlers =
        (Hook.bindAll { slots := [] } (testBinds.take 3)).handlers.map
          (replaceById { ID := "hhh", Priority := 0,
                         Func := fun _ => emit "3'" Prog.returnNext }) ∧
    testHook.Length = 7 ∧
    (testHook.Trigger () [] "").map (fun out => out.state.world) = some "45123'67" := by
  have hr := bindAll_reachable (testBinds.take 3) { slots := [] } Hook.Reachable.zero
  have hx : "hhh" ∈ handlerIDs (Hook.bindAll { slots := [] } (testBinds.take 3)).handlers := by
    decide
  have key := c4_rebind (Hook.bindAll { slots := [] } (testBinds.take 3))
    { ID := "hhh", Priority := 0, Func := fun _ => emit "3'" Prog.returnNext } hr hx
  refine ⟨hr, hx, by decide, by decide, ?_, by decide, by decide⟩
  refine key.2.2.2.2.2.2.2.2 ?_
  intro a ha
  have hh : (Hook.bindAll { slots := [] } (testBinds.take 3)).handlers =
      [{ ID := "h", Priority := 0, Func := fun _ => emit "1" Prog.returnNext },
       { ID := "hh", Priority := 0, Func := fun _ => emit "2" Prog.returnNext },
       { ID := "hhh", Priority := 0, Func := fun _ => emit "3" Prog.returnNext }] := rfl
  rw [hh] at ha
  simp only [List.mem_cons, List.mem_singleton, List.not_mem_nil, or_false] at ha
  rcases ha with rfl | rfl | rfl <;> simp

/-! ## Tagged hooks -/

/-- C5: CanTriggerOn(L) is true if and only if the hook has no configured
tags or some element of L is a configured tag; with configured tags and L
empty it is false. -/
theorem c5_canTriggerOn {ε σ : Type} (h : TaggedHook ε σ) (L : List String) :
    (h.CanTriggerOn L = true ↔ h.tags = [] ∨ ∃ t ∈ L, t ∈ h.tags) ∧
    (h.tags ≠ [] → h.CanTriggerOn [] = false) := by
  refine ⟨?_, ?_⟩
  · by_cases ht : h.tags = []
    · simp [TaggedHook.CanTriggerOn, ht]
    · have hlen : h.tags.length ≠ 0 := fun e => ht (List.length_eq_zero.mp e)
      simp [TaggedHook.CanTriggerOn, ht, hlen]
  · intro ht
    have hlen : h.tags.length ≠ 0 := fun e => ht (List.length_eq_zero.mp e)
    simp [TaggedHook.CanTriggerOn, hlen]

/-- C5, witness: the hook hB of TestTaggedHook, with tags b1 and b2, can
trigger on the tags b1, c2, not on the tag missing and not on no tags. -/
theorem c5_canTriggerOn_witness :
    (NewTaggedHook taggedTestHook ["b1", "b2"]).CanTriggerOn ["b1", "c2"] = true ∧
    (NewTaggedHook taggedTestHook ["b1", "b2"]).CanTriggerOn ["missing"] = false ∧
    (NewTaggedHook taggedTestHook ["b1", "b2"]).tags ≠ [] ∧
    (NewTaggedHook taggedTestHook ["b1", "b2"]).CanTriggerOn [] = false :=
  ⟨by decide, by decide, by decide,
    (c5_canTriggerOn (NewTaggedHook taggedTestHook ["b1", "b2"]) []).2 (by decide)⟩

theorem Prog.exec_returnNext {σ : Type} (callNext : State σ → Option (Outcome σ))
    (st : State σ) : Prog.returnNext.exec callNext st = callNext st := by
  simp only [Prog.returnNext, Prog.exec]
  cases callNext st with
  | none => rfl
  | some out => cases out <;> rfl

theorem PassThrough.set_world {σ : Type} {W : LinkTag} {st1 st2 : State σ} (w : σ)
    (h : PassThrough W st1 st2) :
    PassThrough W { st1 with world := w } { st2 with world := w } :=
  ⟨h.1, h.2.1, rfl, h.2.2.2⟩

/-- Leaving a pass-through link keeps the two runs in step. -/
theorem PassThrough.leave_through {σ : Type} {W : LinkTag} {s1 s2 : State σ} (e : Err)
    (h : PassThrough W s1 s2) (hnil : s1.event.next = [])
    (hrec : e ≠ none → s1.failures ≠ []) : PassThrough W (s1.leave W e) s2 := by
  obtain ⟨_, h2, h3, h4, h5, h6⟩ := h
  refine ⟨by simp [State.leave, Event.setNextFunc], ?_, h3, h4, ?_, ?_⟩
  · rw [h2, hnil]; rfl
  · show s2.failures = (s1.failures ++ failureOf W e).filter _
    rw [List.filter_append, ← h5]
    cases e <;> simp [failureOf]
  · show _ = (s1.failures ++ failureOf W e).head?.map Prod.snd
    rw [h6]
    cases e with
    | none => simp [failureOf]
    | some f =>
      have hne := hrec (by simp)
      cases hf : s1.failures with
      | nil => exact absurd hf hne
      | cons p F => rfl

/-- Leaving the same link in both runs keeps them in step. -/
theorem PassThrough.leave_both {σ : Type} {W t : LinkTag} {s1 s2 : State σ} (e : Err)
    (h : PassThrough W s1 s2) (ht : t ≠ W) : PassThrough W (s1.leave t e) (s2.leave t e) := by
  obtain ⟨_, _, h3, h4, h5, h6⟩ := h
  refine ⟨by simp [State.leave, Event.setNextFunc], rfl, h3, h4, ?_, ?_⟩
  · show s2.failures ++ failureOf t e = (s1.failures ++ failureOf t e).filter _
    rw [List.filter_append, ← h5]
    cases e <;> simp [failureOf, ht]
  · show (s2.failures ++ failureOf t e).head?.map Prod.snd =
      (s1.failures ++ failureOf t e).head?.map Prod.snd
    cases hf1 : s1.failures with
    | nil =>
      rw [hf1] at h5
      simp only [List.filter_nil] at h5
      rw [h5]
    | cons p F =>
      cases hf2 : s2.failures with
      | nil => rw [hf1, hf2] at h6; simp at h6
      | cons q G =>
        rw [hf1, hf2] at h6
        simpa using h6

/-- A body runs alike over the chain with pass-through links and over the
chain without them, when the continuation does. -/
theorem Prog.exec_sim {σ : Type} (W : LinkTag) (n g1 g2 : Nat) (hg : n ≤ g1)
    (hc : ∀ st1 st2 : State σ, st1.event.next.length ≤ n → PassThrough W st1 st2 →
      ∃ out1 out2, Event.Next g1 st1 = some out1 ∧ Event.Next g2 st2 = some out2 ∧
        SimOutcome W out1 out2) :
    ∀ (p : Prog σ) (st1 st2 : State σ), st1.event.next.length ≤ n → PassThrough W st1 st2 →
      ∃ out1 out2, p.exec (Event.Next g1) st1 = some out1 ∧
        p.exec (Event.Next g2) st2 = some out2 ∧ SimOutcome W out1 out2 := by
  intro p
  induction p with
  | ret err =>
    intro st1 st2 _ hR
    exact ⟨.returned err st1, .returned err st2, rfl, rfl, rfl, hR⟩
  | next k ih =>
    intro st1 st2 hlen hR
    obtain ⟨out1, out2, h1, h2, hsim⟩ := hc st1 st2 hlen hR
    obtain ⟨out, j, h3, adv, _⟩ := Event.Next_advances g1 st1 (le_trans hlen hg)
    rw [h1] at h3
    cases Option.some.inj h3
    cases out1 with
    | halted s1 =>
      cases out2 with
      | halted s2 => exact ⟨.halted s1, .halted s2, by simp [Prog.exec, h1],
          by simp [Prog.exec, h2], hsim⟩
      | returned e2 s2 => exact absurd hsim (by simp [SimOutcome])
    | returned e1 s1 =>
      cases out2 with
      | halted s2 => exact absurd hsim (by simp [SimOutcome])
      | returned e2 s2 =>
        obtain ⟨he, hR2⟩ := hsim
        subst he
        obtain ⟨o1, o2, h4, h5, hsim2⟩ := ih e1 s1 s2 (le_trans adv.length_le hlen) hR2
        exact ⟨o1, o2, by simp [Prog.exec, h1, h4], by simp [Prog.exec, h2, h5], hsim2⟩
  | get k ih =>
    intro st1 st2 hlen hR
    obtain ⟨o1, o2, h1, h2, hsim⟩ := ih st1.world st1 st2 hlen hR
    exact ⟨o1, o2, by simp [Prog.exec, h1], by simp [Prog.exec, hR.2.2.1, h2], hsim⟩
  | set w k ih =>
    intro st1 st2 hlen hR
    obtain ⟨o1, o2, h1, h2, hsim⟩ := ih { st1 with world := w } { st2 with world := w } hlen
      (hR.set_world w)
    exact ⟨o1, o2, by simp [Prog.exec, h1], by simp [Prog.exec, h2], hsim⟩
  | halt =>
    intro st1 st2 _ hR
    exact ⟨.halted st1, .halted st2, rfl, rfl, hR⟩

/-- The call e.Next() ends alike over a chain with pass-through links and
over the chain without them. -/
theorem Event.Next_sim {σ : Type} (W : LinkTag) : ∀ (n g1 g2 : Nat) (st1 st2 : State σ),
    st1.event.next.length ≤ n → n ≤ g1 → n ≤ g2 → PassThrough W st1 st2 →
      ∃ out1 out2, Event.Next g1 st1 = some out1 ∧ Event.Next g2 st2 = some out2 ∧
        SimOutcome W out1 out2 := by
  intro n
  induction n with
  | zero =>
    intro g1 g2 st1 st2 hlen _ _ hR
    have hnil : st1.event.next = [] := List.length_eq_zero.mp (Nat.le_zero.mp hlen)
    have hnil2 : st2.event.next = [] := by rw [hR.2.1, hnil]; rfl
    exact ⟨.returned none st1, .returned none st2, Event.Next_nil g1 st1 hnil,
      Event.Next_nil g2 st2 hnil2, rfl, hR⟩
  | succ n ih =>
    intro g1 g2 st1 st2 hlen hg1 hg2 hR
    cases hn : st1.event.next with
    | nil =>
      have hnil2 : st2.event.next = [] := by rw [hR.2.1, hn]; rfl
      exact ⟨.returned none st1, .returned none st2, Event.Next_nil g1 st1 hn,
        Event.Next_nil g2 st2 hnil2, rfl, hR⟩
    | cons l old =>
      obtain ⟨f1, rfl⟩ : ∃ g, g1 = g + 1 := ⟨g1 - 1, by omega⟩
      obtain ⟨f2, rfl⟩ : ∃ g, g2 = g + 1 := ⟨g2 - 1, by omega⟩
      have hold : old.length ≤ n := by rw [hn] at hlen; simpa using hlen
      have hbody : ∀ x ∈ old, x.tag = W → x.body = Prog.returnNext :=
        fun x hx => hR.1 x (by rw [hn]; exact List.mem_cons_of_mem _ hx)
      by_cases hW : l.tag = W
      · have hR2 : PassThrough W
            { st1 with event := st1.event.setNextFunc old, trace := st1.trace ++ [l.tag] }
            st2 := by
          refine ⟨hbody, ?_, hR.2.2.1, ?_, hR.2.2.2.2⟩
          · rw [hR.2.1, hn]; simp [Event.setNextFunc, hW]
          · rw [hR.2.2.2.1]; simp [hW]
        obtain ⟨o1, o2, h1, h2, hsim⟩ := ih f1 (f2 + 1) _ st2 hold (by omega) (by omega) hR2
        obtain ⟨o1b, _, h1b, _, hs1⟩ := Event.Next_advances f1
          { st1 with event := st1.event.setNextFunc old, trace := st1.trace ++ [l.tag] }
          (by simp only [Event.setNextFunc]; omega)
        rw [h1] at h1b
        cases Option.some.inj h1b
        have hex : l.body.exec (Event.Next f1)
            { st1 with event := st1.event.setNextFunc old, trace := st1.trace ++ [l.tag] } =
            some o1 := by
          rw [hR.1 l (by rw [hn]; exact List.mem_cons_self _ _) hW, Prog.exec_returnNext]
          exact h1
        rw [Event.Next_cons f1 st1 l old hn o1 hex]
        cases o1 with
        | halted s1 => exact ⟨_, o2, rfl, h2, hsim⟩
        | returned e s1 =>
          cases o2 with
          | halted s2 => exact absurd hsim (by simp [SimOutcome])
          | returned e2 s2 =>
            obtain ⟨he, hR3⟩ := hsim
            subst he
            refine ⟨_, _, rfl, h2, rfl, ?_⟩
            rw [hW]
            exact hR3.leave_through e hs1.1 hs1.2
      · have hnext2 : st2.event.next = l :: old.filter (fun x => decide (x.tag ≠ W)) := by
          rw [hR.2.1, hn]; simp [hW]
        have hR2 : PassThrough W
            { st1 with event := st1.event.setNextFunc old, trace := st1.trace ++ [l.tag] }
            { st2 with event := st2.event.setNextFunc (old.filter (fun x => decide (x.tag ≠ W))),
                       trace := st2.trace ++ [l.tag] } := by
          refine ⟨hbody, rfl, hR.2.2.1, ?_, hR.2.2.2.2⟩
          show st2.trace ++ [l.tag] = (st1.trace ++ [l.tag]).filter (fun t => decide (t ≠ W))
          rw [hR.2.2.2.1]; simp [hW]
        obtain ⟨o1, o2, h1, h2, hsim⟩ := Prog.exec_sim W n f1 f2 (by omega)
          (fun s1 s2 hl hr => ih f1 f2 s1 s2 hl (by omega) (by omega) hr) l.body _ _ hold hR2
        rw [Event.Next_cons f1 st1 l old hn o1 h1, Event.Next_cons f2 st2 l _ hnext2 o2 h2]
        cases o1 with
        | halted s1 =>
          cases o2 with
          | halted s2 => exact ⟨_, _, rfl, rfl, hsim⟩
          | returned e2 s2 => exact absurd hsim (by simp [SimOutcome])
        | returned e s1 =>
          cases o2 with
          | halted s2 => exact absurd hsim (by simp [SimOutcome])
          | returned e2 s2 =>
            obtain ⟨he, hR3⟩ := hsim
            subst he
            exact ⟨_, _, rfl, rfl, rfl, hR3.leave_both e hW⟩

theorem oneOffLinks_filter {ε σ : Type} (event : ε) (id : String) (fs : List (ε → Prog σ)) :
    ∀ i, (oneOffLinks event i fs).filter (fun l => decide (l.tag ≠ LinkTag.handler id)) =
      oneOffLinks event i fs := by
  intro i
  rw [List.filter_eq_self]
  intro l hl
  have : l.tag ∈ tagsOf (oneOffLinks event i fs) := List.mem_map_of_mem _ hl
  rw [tagsOf_oneOffLinks] at this
  obtain ⟨j, _, hj⟩ := List.mem_map.mp this
  rw [← hj]
  simp

theorem handlerLinks_filter {ε σ : Type} (event : ε) (id : String) (hs : List (Handler ε σ)) :
    handlerLinks event (hs.filter (fun a => !([id].contains a.ID))) =
      (handlerLinks event hs).filter (fun l => decide (l.tag ≠ LinkTag.handler id)) := by
  rw [handlerLinks, handlerLinks, List.filter_map]
  congr 1
  apply List.filter_congr
  intro a _
  by_cases ha : a.ID = id <;> simp [ha]

/-- The chain of the hook without the handler id is the chain without the
link of that handler. -/
theorem chain_unbind {ε σ : Type} (h : Hook ε σ) (event : ε) (oneOff : List (ε → Prog σ))
    (id : String) :
    (h.Unbind [id]).chain event oneOff =
      (h.chain event oneOff).filter (fun l => decide (l.tag ≠ LinkTag.handler id)) := by
  simp only [Hook.chain, Hook.Unbind_handlers, List.filter_append, oneOffLinks_filter,
    handlerLinks_filter]

/-- A registered handler whose function only passes the event on is not
seen by a Trigger call: the other links are invoked in the same order, the
world ends the same and the result is the same as on the hook without that
handler. -/
theorem Hook.Trigger_passThrough {ε σ : Type} (h : Hook ε σ) (a : Handler ε σ) (event : ε)
    (oneOff : List (ε → Prog σ)) (w : σ) (hn : (handlerIDs h.handlers).Nodup)
    (ha : a ∈ h.handlers) (hf : a.Func event = Prog.returnNext) :
    ∃ out1 out2, h.Trigger event oneOff w = some out1 ∧
      (h.Unbind [a.ID]).Trigger event oneOff w = some out2 ∧
      out2.result = out1.result ∧ out2.state.world = out1.state.world ∧
      out2.state.trace = out1.state.trace.filter (fun t => decide (t ≠ LinkTag.handler a.ID)) := by
  have hR : PassThrough (LinkTag.handler a.ID)
      { event := { next := h.chain event oneOff }, world := w, trace := [] }
      { event := { next := (h.Unbind [a.ID]).chain event oneOff }, world := w, trace := [] } := by
    refine ⟨?_, chain_unbind h event oneOff a.ID, rfl, rfl, rfl, rfl⟩
    intro l hl htag
    rcases List.mem_append.mp hl with h1 | h1
    · obtain ⟨b, hb, rfl⟩ := List.mem_map.mp h1
      have hid : b.ID = a.ID := by injection htag
      rw [eq_of_id_eq hn hb ha hid]
      exact hf
    · obtain ⟨j, hj⟩ : ∃ j, l.tag = LinkTag.oneOff j := by
        have : l.tag ∈ tagsOf (oneOffLinks event 0 oneOff) := List.mem_map_of_mem _ h1
        rw [tagsOf_oneOffLinks] at this
        obtain ⟨j, _, hj⟩ := List.mem_map.mp this
        exact ⟨j, hj.symm⟩
      rw [hj] at htag
      cases htag
  have hle : ((h.Unbind [a.ID]).chain event oneOff).length ≤ (h.chain event oneOff).length := by
    rw [chain_unbind]; exact List.length_filter_le _ _
  obtain ⟨o1, o2, h1, h2, hsim⟩ := Event.Next_sim (LinkTag.handler a.ID)
    (h.chain event oneOff).length (h.chain event oneOff).length (h.chain event oneOff).length
    _ _ le_rfl le_rfl le_rfl hR
  have h2b : Event.Next ((h.Unbind [a.ID]).chain event oneOff).length
      { event := { next := (h.Unbind [a.ID]).chain event oneOff }, world := w, trace := [] } =
      some o2 := by
    rw [← h2]
    exact Event.Next_fuel ((h.Unbind [a.ID]).chain event oneOff).length _ _ _ le_rfl le_rfl hle
  obtain ⟨p1, out1, _, hp1, ht1, hst1, _, _, hh1, hr1⟩ := Hook.Trigger_run h event oneOff w
  obtain ⟨p2, out2, _, hp2, ht2, hst2, _, _, hh2, hr2⟩ :=
    Hook.Trigger_run (h.Unbind [a.ID]) event oneOff w
  rw [h1] at hp1
  cases Option.some.inj hp1
  rw [h2b] at hp2
  cases Option.some.inj hp2
  refine ⟨out1, out2, ht1, ht2, ?_⟩
  cases o1 with
  | returned e1 s1 =>
    cases o2 with
    | returned e2 s2 =>
      obtain ⟨_, _, _, hw, ht, _, hhd⟩ := hsim
      rw [hr1 e1 s1 rfl, hr2 e2 s2 rfl]
      exact ⟨by simp [Outcome.result, hhd], hw, ht⟩
    | halted s2 => exact absurd hsim (by simp [SimOutcome])
  | halted s1 =>
    cases o2 with
    | returned e2 s2 => exact absurd hsim (by simp [SimOutcome])
    | halted s2 =>
      obtain ⟨_, _, hw, ht, _⟩ := hsim
      rw [hh1 s1 rfl, hh2 s2 rfl]
      exact ⟨rfl, hw, ht⟩

theorem TaggedHook.wrap_filtered {ε σ : Type} [Tagger ε] (t : TaggedHook ε σ)
    (fn : ε → Prog σ) (event : ε) (hc : t.CanTriggerOn (Tagger.Tags event) = false) :
    t.wrap fn event = Prog.returnNext := by
  simp [TaggedHook.wrap, hc]

/-- A handler bound on a reachable hook with a function that passes the
event on is not seen by Trigger. -/
theorem Hook.Trigger_bind_passThrough {ε σ : Type} (h : Hook ε σ) (x : Handler ε σ) (event : ε)
    (oneOff : List (ε → Prog σ)) (w : σ) (hr : h.Reachable)
    (hf : x.Func event = Prog.returnNext) :
    ∃ out1 out2, (h.Bind x).1.Trigger event oneOff w = some out1 ∧
      ((h.Bind x).1.Unbind [(h.Bind x).2]).Trigger event oneOff w = some out2 ∧
      out2.result = out1.result ∧ out2.state.world = out1.state.world ∧
      out2.state.trace =
        out1.state.trace.filter (fun t => decide (t ≠ LinkTag.handler (h.Bind x).2)) := by
  obtain ⟨a, ha, hid, hfa, _⟩ := Hook.Bind_mem h x hr.valid
  have hv := (Hook.Reachable.bind h x hr).valid_handlers.1
  rw [← hid]
  exact Hook.Trigger_passThrough _ a event oneOff w hv.1 ha (by rw [hfa, hf])

/-- C6, as amended: for every main hook a program can build, every handler
bound to it through a TaggedHook, with Bind under an ID that is not in use
on the main hook (the empty ID, for which one is generated, included) or
with BindFunc, and every event whose tags do not satisfy CanTriggerOn of
that TaggedHook, a Trigger call on the main hook ends as it does on the main
hook as it was before the bind, on which the handler was never bound: same
result, same final world, same links invoked in the same order, the
filtered-out link apart.  Whatever the ID, it ends as it does on the hook
from which the handler bound is removed again. -/
theorem c6_filtered_invisible {ε σ : Type} [Tagger ε] (t : TaggedHook ε σ)
    (handler : Handler ε σ) (fn : ε → Prog σ) (event : ε) (oneOff : List (ε → Prog σ)) (w : σ)
    (hr : t.mainHook.Reachable) (hc : t.CanTriggerOn (Tagger.Tags event) = false) :
    ((handler.ID = "" ∨ handler.ID ∉ handlerIDs t.mainHook.handlers) →
      ∃ out1 out2, (t.Bind handler).1.Trigger event oneOff w = some out1 ∧
        t.mainHook.Trigger event oneOff w = some out2 ∧
        out2.result = out1.result ∧ out2.state.world = out1.state.world ∧
        out2.state.trace =
          out1.state.trace.filter (fun x => decide (x ≠ LinkTag.handler (t.Bind handler).2))) ∧
    (∃ out1 out2, (t.BindFunc fn).1.Trigger event oneOff w = some out1 ∧
      t.mainHook.Trigger event oneOff w = some out2 ∧
      out2.result = out1.result ∧ out2.state.world = out1.state.world ∧
      out2.state.trace =
        out1.state.trace.filter (fun x => decide (x ≠ LinkTag.handler (t.BindFunc fn).2))) ∧
    (∃ out1 out2, (t.Bind handler).1.Trigger event oneOff w = some out1 ∧
      ((t.Bind handler).1.Unbind [(t.Bind handler).2]).Trigger event oneOff w = some out2 ∧
      out2.result = out1.result ∧ out2.state.world = out1.state.world ∧
      out2.state.trace =
        out1.state.trace.filter (fun x => decide (x ≠ LinkTag.handler (t.Bind handler).2))) := by
  have hB := Hook.Trigger_bind_passThrough t.mainHook
    { handler with Func := t.wrap handler.Func } event oneOff w hr
    (t.wrap_filtered handler.Func event hc)
  have hF := Hook.Trigger_bind_passThrough t.mainHook
    { ID := "", Priority := 0, Func := t.wrap fn } event oneOff w hr (t.wrap_filtered fn event hc)
  refine ⟨?_, ?_, hB⟩
  · intro hx
    have hx2 : handler.ID = "" ∨ handler.ID ∉ handlerIDs t.mainHook.slots := by
      rcases hx with hx | hx
      · exact Or.inl hx
      · exact Or.inr (fun hm => hx ((mem_handlerIDs_handlers _ _).mpr hm))
    have hu := Hook.unbind_bind_fresh t.mainHook
      { handler with Func := t.wrap handler.Func } hr hx2
    rw [hu] at hB
    exact hB
  · have hu := Hook.unbind_bind_fresh t.mainHook
      { ID := "", Priority := 0, Func := t.wrap fn } hr (Or.inl rfl)
    rw [hu] at hF
    exact hF

/-- C6, counterexample: the main hook has one handler, bound under the ID
a, which logs a and returns the failure "a failed".  A TaggedHook with the
tag t binds a handler under the same ID a, and an event without tags is
triggered, so that handler is filtered out.  On the main hook on which it
was never bound the handler a runs and Trigger returns "a failed"; on the
main hook after the bind nothing is logged and Trigger returns nil. -/
theorem c6_counterexample :
    (NewTaggedHook shadowBase ["t"]).CanTriggerOn
      (Tagger.Tags ({ tags := [] } : MockTagsEvent)) = false ∧
    (shadowBase.Trigger { tags := [] } [] "").map
      (fun out => (out.result, out.state.world, out.state.trace)) =
        some (some (some "a failed"), "a", [LinkTag.handler "a"]) ∧
    (((NewTaggedHook shadowBase ["t"]).Bind
        { ID := "a", Priority := 0, Func := emitT "x" }).1.Trigger { tags := [] } [] "").map
      (fun out => (out.result, out.state.world, out.state.trace)) =
        some (some none, "", [LinkTag.handler "a"]) := by
  decide

theorem taggedBase_reachable : taggedBase.Reachable :=
  Hook.Reachable.bind _ _ (Hook.Reachable.bind _ _ (Hook.Reachable.bind _ _ Hook.Reachable.zero))

/-- C6, witness: the hook hB of TestTaggedHook (tags b1, b2) over the main
hook with f0, a1 and a2, and an event with the tag c1: with the handler b2
bound through hB the calls are a2 f0 a1 and the result is nil, as they are
on the main hook on which b2 was never bound. -/
theorem c6_filtered_invisible_witness :
    taggedBase.Reachable ∧
    (NewTaggedHook taggedBase ["b1", "b2"]).CanTriggerOn
      (Tagger.Tags ({ tags := ["c1"] } : MockTagsEvent)) = false ∧
    (((NewTaggedHook taggedBase ["b1", "b2"]).Bind
        { ID := "", Priority := -2, Func := emitT "b2" }).1.Trigger { tags := ["c1"] } [] "").map
      (fun out => (out.result, out.state.world)) = some (some none, "a2f0a1") ∧
    (taggedBase.Trigger { tags := ["c1"] } [] "").map
      (fun out => (out.result, out.state.world)) = some (some none, "a2f0a1") ∧
    (∃ out1 out2, ((NewTaggedHook taggedBase ["b1", "b2"]).Bind
          { ID := "", Priority := -2, Func := emitT "b2" }).1.Trigger
          { tags := ["c1"] } [] "" = some out1 ∧
        taggedBase.Trigger { tags := ["c1"] } [] "" = some out2 ∧
        out2.result = out1.result ∧ out2.state.world = out1.state.world ∧
        out2.state.trace = out1.state.trace.filter (fun x => decide (x ≠ LinkTag.handler
          ((NewTaggedHook taggedBase ["b1", "b2"]).Bind
            { ID := "", Priority := -2, Func := emitT "b2" }).2))) :=
  ⟨taggedBase_reachable, by decide, by decide, by decide,
    (c6_filtered_invisible (NewTaggedHook taggedBase ["b1", "b2"])
      { ID := "", Priority := -2, Func := emitT "b2" } (emitT "b1") { tags := ["c1"] } [] ""
      taggedBase_reachable (by decide)).1 (Or.inl rfl)⟩

theorem TaggedHook.wrap_allowed {ε σ : Type} [Tagger ε] (t : TaggedHook ε σ)
    (fn : ε → Prog σ) (event : ε) (hc : t.CanTriggerOn (Tagger.Tags event) = true) :
    t.wrap fn event = fn event := by
  simp [TaggedHook.wrap, hc]

theorem TaggedHook.wrap_no_tags {ε σ : Type} [Tagger ε] (t : TaggedHook ε σ)
    (fn : ε → Prog σ) (ht : t.tags = []) : t.wrap fn = fn := by
  funext e
  simp [TaggedHook.wrap, TaggedHook.CanTriggerOn, ht]

/-- C7: with a main hook a program can build, the handler that
TaggedHook.Bind / BindFunc registers on the main hook (under the ID
returned, with the priority given, 0 for BindFunc) has as its body exactly
fn(e) whenever CanTriggerOn(e.Tags()) holds; a TaggedHook with no
configured tags binds exactly what a direct bind on the shared hook binds;
and the wrapper of a TaggedHook with the tags b1, b2 is fn(e) when the
event reports b1 or b2 and return e.Next() otherwise. -/
theorem c7_tagged_runs {ε σ : Type} [Tagger ε] (t : TaggedHook ε σ) (handler : Handler ε σ)
    (fn : ε → Prog σ) (e : ε) (hr : t.mainHook.Reachable) :
    (∃ a ∈ (t.Bind handler).1.handlers, a.ID = (t.Bind handler).2 ∧
      a.Priority = handler.Priority ∧
      (t.CanTriggerOn (Tagger.Tags e) = true → a.Func e = handler.Func e)) ∧
    (∃ a ∈ (t.BindFunc fn).1.handlers, a.ID = (t.BindFunc fn).2 ∧ a.Priority = 0 ∧
      (t.CanTriggerOn (Tagger.Tags e) = true → a.Func e = fn e)) ∧
    (t.tags = [] → t.Bind handler = t.mainHook.Bind handler ∧
      t.BindFunc fn = t.mainHook.BindFunc fn) ∧
    (t.tags = ["b1", "b2"] →
      (("b1" ∈ Tagger.Tags e ∨ "b2" ∈ Tagger.Tags e) → t.wrap fn e = fn e) ∧
      (¬ ("b1" ∈ Tagger.Tags e ∨ "b2" ∈ Tagger.Tags e) → t.wrap fn e = Prog.returnNext)) := by
  refine ⟨?_, ?_, ?_, ?_⟩
  · obtain ⟨a, ha, hid, hf, hp⟩ := Hook.Bind_mem t.mainHook
      { handler with Func := t.wrap handler.Func } hr.valid
    exact ⟨a, ha, hid, hp, fun hc => by rw [hf]; exact t.wrap_allowed handler.Func e hc⟩
  · obtain ⟨a, ha, hid, hf, hp⟩ := Hook.Bind_mem t.mainHook
      { ID := "", Priority := 0, Func := t.wrap fn } hr.valid
    exact ⟨a, ha, hid, hp, fun hc => by rw [hf]; exact t.wrap_allowed fn e hc⟩
  · intro ht
    refine ⟨?_, ?_⟩
    · simp only [TaggedHook.Bind, t.wrap_no_tags handler.Func ht]
    · simp only [TaggedHook.BindFunc, t.wrap_no_tags fn ht]
  · intro ht
    have hcan : t.CanTriggerOn (Tagger.Tags e) = true ↔
        ("b1" ∈ Tagger.Tags e ∨ "b2" ∈ Tagger.Tags e) := by
      simp only [TaggedHook.CanTriggerOn, ht]
      simp only [List.length_cons, List.length_nil, Nat.reduceAdd, OfNat.ofNat_ne_zero,
        if_false, List.any_eq_true, List.contains_iff_exists_mem_beq, beq_iff_eq]
      constructor
      · rintro ⟨x, hx, y, hy, hxy⟩
        simp only [List.mem_cons, List.mem_singleton, List.not_mem_nil, or_false] at hy
        rcases hy with rfl | rfl
        · left; rw [← hxy]; exact hx
        · right; rw [← hxy]; exact hx
      · rintro (h | h)
        · exact ⟨"b1", h, "b1", by simp, rfl⟩
        · exact ⟨"b2", h, "b2", by simp, rfl⟩
    refine ⟨fun h => t.wrap_allowed fn e (hcan.mpr h), fun h => t.wrap_filtered fn e ?_⟩
    cases hcv : t.CanTriggerOn (Tagger.Tags e) with
    | false => rfl
    | true => exact absurd (hcan.mp hcv) h

/-- C7, witness: TestTaggedHook. An event with the tags b1, c2 gives the
calls c2 b2 a2 f0 a1 b1 c1, an event with no tags gives a2 f0 a1; the
handler a2, bound through the hook hA that has no tags, is bound as a
direct bind would bind it. -/
theorem c7_tagged_runs_witness :
    (taggedTestHook.Trigger { tags := ["b1", "c2"] } [] "").map
      (fun out => (out.result, out.state.world)) = some (some none, "c2b2a2f0a1b1c1") ∧
    (taggedTestHook.Trigger { tags := [] } [] "").map
      (fun out => (out.result, out.state.world)) = some (some none, "a2f0a1") ∧
    (taggedTestHook.Trigger { tags := ["missing"] } [] "").map
      (fun out => (out.result, out.state.world)) = some (some none, "a2f0a1") ∧
    (taggedTestHook.Trigger { tags := ["b2"] } [] "").map
      (fun out => (out.result, out.state.world)) = some (some none, "b2a2f0a1b1") ∧
    (taggedTestHook.Trigger { tags := ["c1"] } [] "").map
      (fun out => (out.result, out.state.world)) = some (some none, "c2a2f0a1c1") ∧
    (NewTaggedHook taggedBase ([] : List String)).Bind
        { ID := "", Priority := -1, Func := emitT "a2" } =
      taggedBase.Bind { ID := "", Priority := -1, Func := emitT "a2" } ∧
    (NewTaggedHook taggedBase ["b1", "b2"]).wrap (emitT "b1") { tags := ["b1", "c2"] } =
      emitT "b1" { tags := ["b1", "c2"] } :=
  ⟨by decide, by decide, by decide, by decide, by decide,
    ((c7_tagged_runs (NewTaggedHook taggedBase []) { ID := "", Priority := -1, Func := emitT "a2" }
      (emitT "a1") { tags := [] } taggedBase_reachable).2.2.1 rfl).1,
    ((c7_tagged_runs (NewTaggedHook taggedBase ["b1", "b2"])
      { ID := "", Priority := -2, Func := emitT "b2" } (emitT "b1") { tags := ["b1", "c2"] }
      taggedBase_reachable).2.2.2 rfl).1 (Or.inl (by decide))⟩

/-- C8, as amended: for every event whose tags do not satisfy CanTriggerOn,
the wrapper registered by TaggedHook.Bind / BindFunc does not run the
supplied function (its body is the same for every function) and is the
statement return e.Next(): running it is calling the event's continuation
and returning what the continuation returns. -/
theorem c8_filtered_wrapper {ε σ : Type} [Tagger ε] (t : TaggedHook ε σ)
    (handler : Handler ε σ) (fn : ε → Prog σ) (e : ε) (hr : t.mainHook.Reachable)
    (hc : t.CanTriggerOn (Tagger.Tags e) = false) :
    (∃ a ∈ (t.Bind handler).1.handlers, a.ID = (t.Bind handler).2 ∧
      a.Func e = Prog.returnNext) ∧
    (∃ a ∈ (t.BindFunc fn).1.handlers, a.ID = (t.BindFunc fn).2 ∧ a.Func e = Prog.returnNext) ∧
    (∀ fn2 : ε → Prog σ, t.wrap fn e = t.wrap fn2 e) ∧
    (∀ (callNext : State σ → Option (Outcome σ)) (st : State σ),
      (t.wrap fn e).exec callNext st = callNext st) := by
  refine ⟨?_, ?_, ?_, ?_⟩
  · obtain ⟨a, ha, hid, hf, _⟩ := Hook.Bind_mem t.mainHook
      { handler with Func := t.wrap handler.Func } hr.valid
    exact ⟨a, ha, hid, by rw [hf]; exact t.wrap_filtered handler.Func e hc⟩
  · obtain ⟨a, ha, hid, hf, _⟩ := Hook.Bind_mem t.mainHook
      { ID := "", Priority := 0, Func := t.wrap fn } hr.valid
    exact ⟨a, ha, hid, by rw [hf]; exact t.wrap_filtered fn e hc⟩
  · intro fn2
    rw [t.wrap_filtered fn e hc, t.wrap_filtered fn2 e hc]
  · intro callNext st
    rw [t.wrap_filtered fn e hc, Prog.exec_returnNext]

/-- C8, counterexample: a continuation that returns the failure "boom": the
wrapper of a TaggedHook with the tag b1, run for an event without tags,
returns "boom", where calling the continuation and returning nil returns
nil.  In a chain the handler before sees the difference: with the wrapper
bound it logs the failure "boom" as the result of e.Next(), with a handler
that calls e.Next() and returns nil it logs nil. -/
theorem c8_counterexample :
    (NewTaggedHook ({ slots := [] } : Hook MockTagsEvent String) ["b1"]).CanTriggerOn
      (Tagger.Tags ({ tags := [] } : MockTagsEvent)) = false ∧
    (((NewTaggedHook ({ slots := [] } : Hook MockTagsEvent String) ["b1"]).wrap (emitT "b1")
        { tags := [] }).exec (fun s => some (.returned (some "boom") s)) (State.init "")).map
      (fun out => out.result) = some (some (some "boom")) ∧
    ((nextThenNil { tags := [] }).exec (fun s => some (.returned (some "boom") s))
        (State.init "")).map (fun out => out.result) = some (some none) ∧
    (((NewTaggedHook (Hook.Bind ({ slots := [] } : Hook MockTagsEvent String)
          { ID := "", Priority := -1, Func := observe }).1 ["b1"]).BindFunc
        (emitT "b1")).1.Trigger { tags := [] } failingOneOff "").map
      (fun out => out.state.world) = some "boom" ∧
    (((Hook.Bind ({ slots := [] } : Hook MockTagsEvent String)
          { ID := "", Priority := -1, Func := observe }).1.BindFunc nextThenNil).1.Trigger
        { tags := [] } failingOneOff "").map
      (fun out => out.state.world) = some "nil" := by
  decide

/-- C8, witness: the hook hB of TestTaggedHook and an event with the tag
c1. -/
theorem c8_filtered_wrapper_witness :
    taggedBase.Reachable ∧
    (NewTaggedHook taggedBase ["b1", "b2"]).CanTriggerOn
      (Tagger.Tags ({ tags := ["c1"] } : MockTagsEvent)) = false ∧
    (NewTaggedHook taggedBase ["b1", "b2"]).wrap (emitT "b1") { tags := ["c1"] } =
      (NewTaggedHook taggedBase ["b1", "b2"]).wrap (emitT "b2") { tags := ["c1"] } :=
  ⟨taggedBase_reachable, by decide,
    (c8_filtered_wrapper (NewTaggedHook taggedBase ["b1", "b2"])
      { ID := "", Priority := -2, Func := emitT "b2" } (emitT "b1") { tags := ["c1"] }
      taggedBase_reachable (by decide)).2.2.1 (emitT "b2")⟩

/-! ## The lifecycle -/

theorem chain_one {ε σ : Type} (h : Hook ε σ) (event : ε) (f : ε → Prog σ) :
    h.chain event [f] =
      handlerLinks event h.handlers ++ [Link.mk (LinkTag.oneOff 0) (f event)] := rfl

theorem chain_two {ε σ : Type} (h : Hook ε σ) (event : ε) (f g : ε → Prog σ) :
    h.chain event [f, g] =
      handlerLinks event h.handlers ++
        [Link.mk (LinkTag.oneOff 0) (f event), Link.mk (LinkTag.oneOff 1) (g event)] := rfl

/-- The stop action on a container whose Stop fails, with IsRestart false:
it returns the failure, touches nothing and does not call e.Next(). -/
theorem BaseApp.stop_fail {α : Type} (env : Env) (app : BaseApp α) (ev : StopEvent)
    (fx : FxApp) (f : String) (callNext : State (World α) → Option (Outcome (World α)))
    (st : State (World α)) (h1 : st.world.fxApp = some fx) (h2 : st.world.isRestart = false)
    (h3 : env.fxStop fx st.world.stopCtx = some f) :
    (app.stop env ev).exec callNext st = some (.returned (some f) st) := by
  simp only [BaseApp.stop, Prog.exec]
  split
  · rename_i hb
    rw [h1] at hb
    cases hb
  · rename_i fx2 hb
    rw [h1] at hb
    cases hb
    rw [h3]
    simp [h2, Prog.exec]

/-- The stop action on a container, with IsRestart true: return e.Next(),
whether the container's Stop fails or not. -/
theorem BaseApp.stop_restart {α : Type} (env : Env) (app : BaseApp α) (ev : StopEvent)
    (fx : FxApp) (callNext : State (World α) → Option (Outcome (World α)))
    (st : State (World α)) (h1 : st.world.fxApp = some fx) (h2 : st.world.isRestart = true) :
    (app.stop env ev).exec callNext st = callNext st := by
  simp only [BaseApp.stop, Prog.exec]
  split
  · rename_i hb
    rw [h1] at hb
    cases hb
  · rename_i fx2 hb
    rw [h1] at hb
    cases hb
    cases h3 : env.fxStop fx st.world.stopCtx with
    | none => exact Prog.exec_returnNext callNext st
    | some err =>
      simp only [h2, Bool.not_true, Bool.false_eq_true, if_false]
      exact Prog.exec_returnNext callNext st

/-- The restart action with IsRestart true: it ends the same way whatever
the continuation is, with the owned references cleared, the event, the
trace and the record untouched. -/
theorem BaseApp.restart_commit {α : Type} (env : Env) (app : BaseApp α) (ev : StopEvent)
    (st : State (World α)) (h : st.world.isRestart = true) :
    ∃ out : Outcome (World α),
      (∀ callNext : State (World α) → Option (Outcome (World α)),
        (app.restart env ev).exec callNext st = some out) ∧
      out.state.world.fxApp = none ∧ out.state.world.fxLogger = none ∧
      out.state.event = st.event ∧ out.state.trace = st.trace ∧
      out.state.failures = st.failures ∧
      (∀ err, env.osExecutable = .error err →
        out = .returned (some err) { st with world := BaseApp.reset st.world }) ∧
      (∀ path err, env.osExecutable = .ok path → env.sysExec path = some err →
        out = .returned (some err)
          { st with world := { BaseApp.reset st.world with
                               execCalls := st.world.execCalls + 1 } }) ∧
      (∀ path, env.osExecutable = .ok path → env.sysExec path = none →
        out = .halted
          { st with world := { BaseApp.reset st.world with
                               execCalls := st.world.execCalls + 1 } }) := by
  cases hx : env.osExecutable with
  | error e =>
    refine ⟨.returned (some e) { st with world := BaseApp.reset st.world }, ?_, rfl, rfl,
      rfl, rfl, rfl, ?_, ?_, ?_⟩
    · intro callNext
      simp [BaseApp.restart, Prog.exec, hx, h]
    · intro err he
      cases he
      rfl
    · intro path err he
      cases he
    · intro path he
      cases he
  | ok p =>
    cases hs : env.sysExec p with
    | some e =>
      refine ⟨.returned (some e)
        { st with world := { BaseApp.reset st.world with
                             execCalls := st.world.execCalls + 1 } }, ?_, rfl, rfl,
        rfl, rfl, rfl, ?_, ?_, ?_⟩
      · intro callNext
        simp [BaseApp.restart, Prog.exec, hx, hs, h, BaseApp.reset]
      · intro err he
        cases he
      · intro path err he hse
        cases he
        rw [hs] at hse
        cases hse
        rfl
      · intro path he hse
        cases he
        rw [hs] at hse
        cases hse
    | none =>
      refine ⟨.halted
        { st with world := { BaseApp.reset st.world with
                             execCalls := st.world.execCalls + 1 } }, ?_, rfl, rfl,
        rfl, rfl, rfl, ?_, ?_, ?_⟩
      · intro callNext
        simp [BaseApp.restart, Prog.exec, hx, hs, h, BaseApp.reset]
      · intro err he
        cases he
      · intro path err he hse
        cases he
        rw [hs] at hse
        cases hse
      · intro path he _
        cases he
        rfl

/-- C9: for every failure f of the Stop of a container fx.  The stop
terminal action, run with IsRestart false, returns f, touches nothing and
does not invoke the continuation; in a Stop call in which the action is
reached that way (the registered handlers have invoked their continuations
and left IsRestart false), f is the first failure of the record and Stop
returns f to the caller: it returns nothing else, and it returns when no
registered handler has a step that control does not come back from.  With
IsRestart true the action is return e.Next(): the failure is suppressed and
the continuation invoked; and in a Restart call (not on windows) in which
the action is reached that way, the restart terminal action is invoked
after it and carries out its process-replacement step: on success control
does not come back and the world is the one the action left, with the owned
references cleared and one call of syscall.Exec; on failure the error of
os.Executable or syscall.Exec is what Restart returns. -/
theorem c9_stop_failure {α : Type} (env : Env) (app : BaseApp α) (ctx : Context) (w : World α)
    (f : String) (fx : FxApp) :
    (∀ (callNext : State (World α) → Option (Outcome (World α))) (st : State (World α)),
      st.world.fxApp = some fx → st.world.isRestart = false →
      env.fxStop fx st.world.stopCtx = some f →
        (app.stop env StopEvent.mk).exec callNext st = some (.returned (some f) st)) ∧
    (∀ ws : World α,
      entryWorld (handlerLinks StopEvent.mk app.onStop.handlers)
        { w with stopCtx := Context.withTimeout ctx app.stopTimeout, isRestart := false } =
          some ws →
      ws.fxApp = some fx → ws.isRestart = false → env.fxStop fx ws.stopCtx = some f →
        ∃ out, app.Stop env ctx w = some out ∧
          out.state.failures.head? = some (LinkTag.oneOff 0, f) ∧
          out.state.trace = app.onStop.handlers.map (fun a => LinkTag.handler a.ID) ++
            [LinkTag.oneOff 0] ∧
          (∀ err s, out = .returned err s → err = some f) ∧
          ((∀ a ∈ app.onStop.handlers, (a.Func StopEvent.mk).NoHalt) →
            ∃ s, out = .returned (some f) s)) ∧
    (∀ (callNext : State (World α) → Option (Outcome (World α))) (st : State (World α)),
      st.world.fxApp = some fx → st.world.isRestart = true →
        (app.stop env StopEvent.mk).exec callNext st = callNext st) ∧
    (env.GOOS ≠ "windows" → ∀ ws : World α,
      entryWorld (handlerLinks StopEvent.mk app.onStop.handlers)
        { w with stopCtx := Context.withTimeout ctx app.stopTimeout, isRestart := true } =
          some ws →
      ws.fxApp = some fx → ws.isRestart = true →
        ∃ out, app.Restart env ctx w = some out ∧
          out.state.trace = app.onStop.handlers.map (fun a => LinkTag.handler a.ID) ++
            [LinkTag.oneOff 0, LinkTag.oneOff 1] ∧
          (∀ path, env.osExecutable = .ok path → env.sysExec path = none →
            ∃ s, out = .halted s ∧
              s.world = { BaseApp.reset ws with execCalls := ws.execCalls + 1 }) ∧
          (∀ path err, env.osExecutable = .ok path → env.sysExec path = some err →
            out.state.failures.head? = some (LinkTag.oneOff 1, err) ∧
              ∀ e s, out = .returned e s → e = some err) ∧
          (∀ err, env.osExecutable = .error err →
            out.state.failures.head? = some (LinkTag.oneOff 1, err) ∧
              ∀ e s, out = .returned e s → e = some err)) := by
  refine ⟨?_, ?_, ?_, ?_⟩
  · intro callNext st h1 h2 h3
    exact BaseApp.stop_fail env app _ fx f callNext st h1 h2 h3
  · intro ws hw h1 h2 h3
    obtain ⟨outR, out, kR, hR, _, _, ho, _, hret, ht, G, hf, _⟩ :=
      Hook.Trigger_prefix app.onStop StopEvent.mk [app.stop env]
        { w with stopCtx := Context.withTimeout ctx app.stopTimeout, isRestart := false } ws
        (handlerLinks StopEvent.mk app.onStop.handlers)
        [Link.mk (LinkTag.oneOff 0) (app.stop env StopEvent.mk)] (chain_one _ _ _) hw
    obtain ⟨g, hg⟩ : ∃ g, (app.onStop.chain StopEvent.mk [app.stop env]).length = g + 1 :=
      ⟨(handlerLinks StopEvent.mk app.onStop.handlers).length, by rw [chain_one]; simp⟩
    rw [hg] at hR
    have hex := BaseApp.stop_fail env app StopEvent.mk fx f (Event.Next g)
      { event := { next := [] }, world := ws,
        trace := tagsOf (handlerLinks StopEvent.mk app.onStop.handlers) ++ [LinkTag.oneOff 0] }
      h1 h2 h3
    have hN := Event.Next_cons g
      { event := { next := [Link.mk (LinkTag.oneOff 0) (app.stop env StopEvent.mk)] },
        world := ws, trace := tagsOf (handlerLinks StopEvent.mk app.onStop.handlers) }
      (Link.mk (LinkTag.oneOff 0) (app.stop env StopEvent.mk)) [] rfl _ hex
    rw [hN] at hR
    cases Option.some.inj hR
    have hhead : out.state.failures.head? = some (LinkTag.oneOff 0, f) := by
      rw [hf]
      rfl
    have hres : ∀ err s, out = .returned err s → err = some f := by
      intro err s hs
      have hs2 : app.onStop.Trigger StopEvent.mk [app.stop env]
          { w with stopCtx := Context.withTimeout ctx app.stopTimeout, isRestart := false } =
          some (.returned err s) := by rw [ho, hs]
      rw [Hook.Trigger_result _ _ _ _ err s hs2]
      have : s = out.state := by rw [hs]; rfl
      rw [this, hhead]
      rfl
    refine ⟨out, ho, hhead, ?_, hres, ?_⟩
    · rw [ht]
      show tagsOf (handlerLinks StopEvent.mk app.onStop.handlers) ++ [LinkTag.oneOff 0] = _
      rw [tagsOf_handlerLinks]
    · intro hn
      obtain ⟨r2, s2, e2⟩ := hret (fun l hl => by
        obtain ⟨a, ha, rfl⟩ := List.mem_map.mp hl
        exact hn a ha) _ _ rfl
      have := hres r2 s2 e2
      subst this
      exact ⟨s2, e2⟩
  · intro callNext st h1 h2
    exact BaseApp.stop_restart env app _ fx callNext st h1 h2
  · intro hos ws hw h1 h2
    have hR0 : app.Restart env ctx w =
        app.onStop.Trigger StopEvent.mk [app.stop env, app.restart env]
          { w with stopCtx := Context.withTimeout ctx app.stopTimeout, isRestart := true } := by
      simp only [BaseApp.Restart, hos, if_false]
    obtain ⟨outR, out, kR, hR, _, _, ho, hh, _, ht, G, hf, _⟩ :=
      Hook.Trigger_prefix app.onStop StopEvent.mk [app.stop env, app.restart env]
        { w with stopCtx := Context.withTimeout ctx app.stopTimeout, isRestart := true } ws
        (handlerLinks StopEvent.mk app.onStop.handlers)
        [Link.mk (LinkTag.oneOff 0) (app.stop env StopEvent.mk),
         Link.mk (LinkTag.oneOff 1) (app.restart env StopEvent.mk)] (chain_two _ _ _ _) hw
    obtain ⟨g, hg⟩ : ∃ g, (app.onStop.chain StopEvent.mk
        [app.stop env, app.restart env]).length = g + 1 + 1 :=
      ⟨(handlerLinks StopEvent.mk app.onStop.handlers).length, by rw [chain_two]; simp⟩
    rw [hg] at hR
    obtain ⟨O, hO, _, _, heO, htO, hfO, hc1, hc2, hc3⟩ := BaseApp.restart_commit env app
      StopEvent.mk
      { event := { next := [] }, world := ws,
        trace := tagsOf (handlerLinks StopEvent.mk app.onStop.handlers) ++
          [LinkTag.oneOff 0] ++ [LinkTag.oneOff 1] } h2
    obtain ⟨o1, hn1, adv1, _, _, _, ht1, hh1, hr1, _⟩ := Event.Next_step g
      { event := { next := [Link.mk (LinkTag.oneOff 1) (app.restart env StopEvent.mk)] },
        world := ws,
        trace := tagsOf (handlerLinks StopEvent.mk app.onStop.handlers) ++ [LinkTag.oneOff 0] }
      (Link.mk (LinkTag.oneOff 1) (app.restart env StopEvent.mk)) [] rfl O 0 (hO _)
      (Advances.zero _ _ heO htO hfO)
    have hexS : (app.stop env StopEvent.mk).exec (Event.Next (g + 1))
        { event := { next := [Link.mk (LinkTag.oneOff 1) (app.restart env StopEvent.mk)] },
          world := ws,
          trace := tagsOf (handlerLinks StopEvent.mk app.onStop.handlers) ++
            [LinkTag.oneOff 0] } = some o1 := by
      rw [BaseApp.stop_restart env app StopEvent.mk fx _ _ h1 h2]
      exact hn1
    obtain ⟨o0, hn0, _, _, _, _, ht0, hh0, hr0, _⟩ := Event.Next_step (g + 1)
      { event := { next := [Link.mk (LinkTag.oneOff 0) (app.stop env StopEvent.mk),
                            Link.mk (LinkTag.oneOff 1) (app.restart env StopEvent.mk)] },
        world := ws, trace := tagsOf (handlerLinks StopEvent.mk app.onStop.handlers) }
      (Link.mk (LinkTag.oneOff 0) (app.stop env StopEvent.mk))
      [Link.mk (LinkTag.oneOff 1) (app.restart env StopEvent.mk)] rfl o1 1 hexS adv1
    rw [hR] at hn0
    cases Option.some.inj hn0
    have hres : ∀ e s, out = .returned e s → e = s.failures.head?.map Prod.snd := by
      intro e s hs
      exact Hook.Trigger_result _ _ _ _ e s (by rw [ho, hs])
    have hfail : ∀ err, O = .returned (some err)
        (O.state) → out.state.failures.head? = some (LinkTag.oneOff 1, err) ∧
          ∀ e s, out = .returned e s → e = some err := by
      intro err hOe
      have h1e := hr1 (some err) O.state hOe
      have h0e := hr0 _ _ h1e
      have hhead : out.state.failures.head? = some (LinkTag.oneOff 1, err) := by
        rw [hf, h0e]
        show ((O.state.failures ++ failureOf (LinkTag.oneOff 1) (some err)) ++
          failureOf (LinkTag.oneOff 0) (some err) ++ G).head? = _
        rw [hfO]
        rfl
      refine ⟨hhead, ?_⟩
      intro e s hs
      rw [hres e s hs]
      have : s = out.state := by rw [hs]; rfl
      rw [this, hhead]
      rfl
    refine ⟨out, by rw [hR0]; exact ho, ?_, ?_, ?_, ?_⟩
    · rw [ht, ht0, ht1, htO, tagsOf_handlerLinks]
      simp
    · intro path hp hs
      have hOh := hc3 path hp hs
      exact ⟨_, hh _ (hh0 _ (hh1 _ hOh)), rfl⟩
    · intro path err hp hs
      have hOe := hc2 path err hp hs
      exact hfail err (by rw [hOe]; rfl)
    · intro err hp
      have hOe := hc1 err hp
      exact hfail err (by rw [hOe]; rfl)

/-- C9, witness: the container's Stop fails with "stop failed". Stop on an
application with the handler return e.Next() returns that failure; Restart
suppresses it and invokes both terminal actions, after which the process
image is replaced.  The flag the action reads is the one the event has when
the action runs: with a handler that inverts IsRestart, Stop returns nil,
and Restart returns the failure without invoking the restart action. -/
theorem c9_stop_failure_witness :
    (observedApp.Stop failingStopEnv Context.background startedWorld).map
      (fun out => out.result) = some (some (some "stop failed")) ∧
    (observedApp.Restart failingStopEnv Context.background startedWorld).map
      (fun out => (out.result, out.state.trace, out.state.world.execCalls)) =
        some (none, [LinkTag.handler "h", LinkTag.oneOff 0, LinkTag.oneOff 1], 1) ∧
    (swallowApp.Stop failingStopEnv Context.background startedWorld).map
      (fun out => out.result) = some (some (some "stop failed")) ∧
    (flipApp.Stop failingStopEnv Context.background startedWorld).map
      (fun out => (out.result, out.state.trace)) =
        some (some none, [LinkTag.handler "h", LinkTag.oneOff 0]) ∧
    (flipApp.Restart failingStopEnv Context.background startedWorld).map
      (fun out => (out.result, out.state.trace)) =
        some (some (some "stop failed"), [LinkTag.handler "h", LinkTag.oneOff 0]) ∧
    (∃ out, observedApp.Stop failingStopEnv Context.background startedWorld = some out ∧
      (∀ err s, out = .returned err s → err = some "stop failed") ∧
      ∃ s, out = .returned (some "stop failed") s) := by
  refine ⟨by decide, by decide, by decide, by decide, by decide, ?_⟩
  obtain ⟨out, h1, _, _, h4, h5⟩ :=
    (c9_stop_failure failingStopEnv observedApp Context.background startedWorld "stop failed"
      { startTimeout := 15, stopTimeout := 15, logger := NopLogger, options := [] }).2.1
      { startedWorld with stopCtx := Context.withTimeout Context.background 15,
                          isRestart := false }
      rfl rfl rfl rfl
  refine ⟨out, h1, h4, h5 ?_⟩
  intro a ha
  have hh : observedApp.onStop.handlers =
      [{ ID := "h", Priority := 0, Func := fun _ => Prog.returnNext }] := rfl
  rw [hh, List.mem_singleton] at ha
  subst ha
  simp [Prog.NoHalt, Prog.returnNext]

/-- C10: on windows, for every orchestrator state, Restart returns the
fixed error "app: restart is not supported on windows" and changes
nothing: the world (container reference, logger, count of process
replacements attempted) is the one it started from and no stop handler or
terminal action is invoked. -/
theorem c10_restart_windows {α : Type} (env : Env) (app : BaseApp α) (ctx : Context)
    (w : World α) (hos : env.GOOS = "windows") :
    ∃ st, app.Restart env ctx w =
        some (.returned (some "app: restart is not supported on windows") st) ∧
      st.world = w ∧ st.trace = [] ∧
      st.world.fxApp = w.fxApp ∧ st.world.fxLogger = w.fxLogger ∧
      st.world.execCalls = w.execCalls := by
  refine ⟨State.init w, ?_, rfl, rfl, rfl, rfl, rfl⟩
  simp [BaseApp.Restart, hos, errRestartUnsupported]

/-- C10, witness: a started application with a stop handler, on windows. -/
theorem c10_restart_windows_witness :
    windowsEnv.GOOS = "windows" ∧
    ∃ st, observedApp.Restart windowsEnv Context.background startedWorld =
        some (.returned (some "app: restart is not supported on windows") st) ∧
      st.world = startedWorld ∧ st.trace = [] ∧
      st.world.fxApp = startedWorld.fxApp ∧ st.world.fxLogger = startedWorld.fxLogger ∧
      st.world.execCalls = startedWorld.execCalls :=
  ⟨rfl, c10_restart_windows windowsEnv observedApp Context.background startedWorld rfl⟩

/-! ## The boot terminal action -/

/-- In a chain of registered handlers followed by one one-off function, the
event points at the one-off function only when nothing is left after it. -/
theorem drop_terminal {ε σ : Type} (event : ε) (T : Link σ) :
    ∀ (hs : List (Handler ε σ)) (k : Nat) (l : Link σ) (old : List (Link σ)),
      (handlerLinks event hs ++ [T]).drop k = l :: old → l.tag = LinkTag.oneOff 0 →
        old = [] ∧ l = T := by
  intro hs
  induction hs with
  | nil =>
    intro k l old hd _
    cases k with
    | zero =>
      simp only [handlerLinks, List.map_nil, List.nil_append, List.drop_zero,
        List.cons.injEq] at hd
      exact ⟨hd.2.symm, hd.1.symm⟩
    | succ k => simp [handlerLinks] at hd
  | cons a hs ih =>
    intro k l old hd ht
    cases k with
    | zero =>
      simp only [handlerLinks, List.map_cons, List.cons_append, List.drop_zero,
        List.cons.injEq] at hd
      rw [← hd.1] at ht
      cases ht
    | succ k => exact ih k l old (by simpa [handlerLinks] using hd) ht

/-- C11: the boot terminal action createFxApp. When the boot event carries
no logger it returns the failure "app: bootstrap fx event logger is nil"
without touching the state (container reference and logger unchanged) and
without invoking the continuation; when the event carries a logger it sets
the logger and the container, built from the options accumulated on the
event, and returns e.Next(). In Boot it is the last link of the chain, and
as the last link it fails if and only if the event carries no logger.
Boot with no registered handlers returns nil with the container and the
no-op logger installed. -/
theorem c11_boot_action {α : Type} (app : BaseApp α) (event : BootEvent) :
    (∀ (callNext : State (World α) → Option (Outcome (World α))) (st : State (World α)),
      st.world.bootLogger = none →
        (app.createFxApp event).exec callNext st =
          some (.returned (some "app: bootstrap fx event logger is nil") st)) ∧
    (∀ (callNext : State (World α) → Option (Outcome (World α))) (st : State (World α))
        (logger : FxLogger), st.world.bootLogger = some logger →
        (app.createFxApp event).exec callNext st =
          callNext { st with world := app.install logger st.world }) ∧
    (∀ (fuel : Nat) (st : State (World α)), st.event.next = [] →
      ((∃ err st1, (app.createFxApp event).exec (Event.Next fuel) st =
          some (.returned (some err) st1)) ↔ st.world.bootLogger = none) ∧
      (∀ logger, st.world.bootLogger = some logger →
        (app.createFxApp event).exec (Event.Next fuel) st =
          some (.returned none { st with world := app.install logger st.world }))) ∧
    (∀ (k : Nat) (l : Link (World α)) (old : List (Link (World α))),
      (app.onBootstrap.chain event [app.createFxApp]).drop k = l :: old →
      l.tag = LinkTag.oneOff 0 → old = [] ∧ l.body = app.createFxApp event) ∧
    (∀ (ctx : Context) (w : World α), app.onBootstrap.handlers = [] →
      app.Boot ctx w = some (.returned none
        { event := { next := [] },
          world := app.install NopLogger { w with bootLogger := some NopLogger,
                                                  bootOptions := [] },
          trace := [LinkTag.oneOff 0] })) := by
  have hfail : ∀ (callNext : State (World α) → Option (Outcome (World α)))
      (st : State (World α)), st.world.bootLogger = none →
      (app.createFxApp event).exec callNext st =
        some (.returned (some "app: bootstrap fx event logger is nil") st) := by
    intro callNext st h
    simp [BaseApp.createFxApp, Prog.exec, h]
  have hok : ∀ (callNext : State (World α) → Option (Outcome (World α)))
      (st : State (World α)) (logger : FxLogger), st.world.bootLogger = some logger →
      (app.createFxApp event).exec callNext st =
        callNext { st with world := app.install logger st.world } := by
    intro callNext st logger h
    simp only [BaseApp.createFxApp, Prog.exec]
    split
    · rename_i hb
      rw [h] at hb
      cases hb
    · rename_i lg hb
      rw [h] at hb
      cases hb
      exact Prog.exec_returnNext callNext _
  have hlast : ∀ (fuel : Nat) (st : State (World α)) (logger : FxLogger),
      st.event.next = [] → st.world.bootLogger = some logger →
      (app.createFxApp event).exec (Event.Next fuel) st =
        some (.returned none { st with world := app.install logger st.world }) := by
    intro fuel st logger hn h
    rw [hok _ st logger h]
    cases fuel <;> simp [Event.Next, Event.nextFunc, hn]
  refine ⟨hfail, hok, ?_, ?_, ?_⟩
  · intro fuel st hn
    refine ⟨⟨?_, fun h => ⟨_, st, hfail _ st h⟩⟩, fun logger h => hlast fuel st logger hn h⟩
    rintro ⟨err, st1, h1⟩
    cases hb : st.world.bootLogger with
    | none => rfl
    | some logger =>
      rw [hlast fuel st logger hn hb] at h1
      cases h1
  · intro k l old hd ht
    obtain ⟨h1, h2⟩ := drop_terminal event
      (Link.mk (LinkTag.oneOff 0) (app.createFxApp event)) app.onBootstrap.handlers k l old
      hd ht
    exact ⟨h1, by rw [h2]⟩
  · intro ctx w hnil
    have hchain : app.onBootstrap.chain (BootEvent.mk ctx) [app.createFxApp] =
        [Link.mk (LinkTag.oneOff 0) (app.createFxApp (BootEvent.mk ctx))] := by
      simp [Hook.chain, hnil, handlerLinks, oneOffLinks]
    simp only [BaseApp.Boot, Hook.Trigger, hchain, State.init, Event.setNextFunc,
      List.length_singleton, Event.Next, Event.nextFunc, List.nil_append]
    simp [BaseApp.createFxApp, Prog.exec, Prog.returnNext, Event.Next, Event.nextFunc,
      BaseApp.install, State.leave, failureOf, Event.setNextFunc]

/-- C11, witness: Boot with no registered handlers installs the no-op
logger and a container without options; with the handlers BootOptions("a")
and BootOptions("b", "c") the container is built from the options a, b, c;
with a handler that sets event.Logger = nil the terminal action fails and
the container reference and the logger stay nil. -/
theorem c11_boot_action_witness :
    (plainApp.Boot Context.background idleWorld).map
      (fun out => (out.result, out.state.world.fxApp, out.state.world.fxLogger)) =
        some (some none,
          some { startTimeout := 15, stopTimeout := 15, logger := NopLogger, options := [] },
          some NopLogger) ∧
    (optionsApp.Boot Context.background idleWorld).map
      (fun out => (out.result, out.state.world.fxApp, out.state.world.fxLogger)) =
        some (some none,
          some { startTimeout := 15, stopTimeout := 15, logger := NopLogger,
                 options := ["a", "b", "c"] },
          some NopLogger) ∧
    (noLoggerApp.Boot Context.background idleWorld).map
      (fun out => (out.result, out.state.trace, out.state.world.fxApp,
        out.state.world.fxLogger)) =
        some (some (some "app: bootstrap fx event logger is nil"),
          [LinkTag.handler "h", LinkTag.oneOff 0], none, none) ∧
    plainApp.Boot Context.background idleWorld = some (.returned none
      { event := { next := [] },
        world := plainApp.install NopLogger
          { idleWorld with bootLogger := some NopLogger, bootOptions := [] },
        trace := [LinkTag.oneOff 0] }) :=
  ⟨by decide, by decide, by decide,
    (c11_boot_action plainApp { Ctx := Context.background }).2.2.2.2 Context.background
      idleWorld rfl⟩

/-! ## The restart terminal action -/

/-- A body that keeps a quantity of the world leaves it as it was, when the
calls of the continuation do. -/
theorem Prog.exec_keeps {σ β : Type} (f : σ → β) (v : β) (fuel : Nat)
    (hc : ∀ st : State σ, (∀ l ∈ st.event.next, l.body.Keeps f v) → f st.world = v →
      st.event.next.length ≤ fuel → ∃ out, Event.Next fuel st = some out ∧ f out.state.world = v) :
    ∀ (p : Prog σ) (st : State σ), p.Keeps f v → (∀ l ∈ st.event.next, l.body.Keeps f v) →
      f st.world = v → st.event.next.length ≤ fuel →
        ∃ out, p.exec (Event.Next fuel) st = some out ∧ f out.state.world = v := by
  intro p
  induction p with
  | ret err => intro st _ _ hw _; exact ⟨.returned err st, rfl, hw⟩
  | next k ih =>
    intro st h hall hw hlen
    obtain ⟨out1, h1, hw1⟩ := hc st hall hw hlen
    obtain ⟨out, j, h2, _, hs⟩ := Event.Next_advances fuel st hlen
    rw [h1] at h2
    cases Option.some.inj h2
    cases out1 with
    | halted s1 => exact ⟨.halted s1, by simp [Prog.exec, h1], hw1⟩
    | returned r s1 =>
      have hnil : s1.event.next = [] := hs.1
      obtain ⟨o, h3, hw3⟩ := ih r s1 (h r) (by rw [hnil]; simp) hw1 (by rw [hnil]; simp)
      exact ⟨o, by simp [Prog.exec, h1, h3], hw3⟩
  | get k ih =>
    intro st h hall hw hlen
    obtain ⟨o, h1, hw1⟩ := ih st.world st (h st.world hw) hall hw hlen
    exact ⟨o, by simp [Prog.exec, h1], hw1⟩
  | set w k ih =>
    intro st h hall _ hlen
    obtain ⟨o, h1, hw1⟩ := ih { st with world := w } h.2 hall h.1 hlen
    exact ⟨o, by simp [Prog.exec, h1], hw1⟩
  | halt => intro st _ _ hw _; exact ⟨.halted st, rfl, hw⟩

/-- When every link that is left keeps a quantity of the world, e.Next()
leaves it as it was. -/
theorem Event.Next_keeps {σ β : Type} (f : σ → β) (v : β) : ∀ (fuel : Nat) (st : State σ),
    (∀ l ∈ st.event.next, l.body.Keeps f v) → f st.world = v → st.event.next.length ≤ fuel →
      ∃ out, Event.Next fuel st = some out ∧ f out.state.world = v := by
  intro fuel
  induction fuel with
  | zero =>
    intro st _ hw hst
    have hnil : st.event.next = [] := List.length_eq_zero.mp (Nat.le_zero.mp hst)
    exact ⟨.returned none st, Event.Next_nil 0 st hnil, hw⟩
  | succ fuel ih =>
    intro st hall hw hst
    cases hn : st.event.next with
    | nil => exact ⟨.returned none st, Event.Next_nil _ st hn, hw⟩
    | cons l old =>
      rw [hn] at hall hst
      obtain ⟨out, h1, hw1⟩ := Prog.exec_keeps f v fuel ih l.body
        { st with event := st.event.setNextFunc old, trace := st.trace ++ [l.tag] }
        (hall l (List.mem_cons_self _ _))
        (fun x hx => hall x (List.mem_cons_of_mem _ hx)) hw (by simpa using hst)
      rw [Event.Next_cons fuel st l old hn out h1]
      cases out with
      | halted s => exact ⟨_, rfl, hw1⟩
      | returned e s => exact ⟨_, rfl, hw1⟩

/-- The stop action writes nothing. -/
theorem BaseApp.stop_keeps {α β : Type} (env : Env) (app : BaseApp α) (event : StopEvent)
    (f : World α → β) (v : β) : (app.stop env event).Keeps f v := by
  intro w _
  cases hfx : w.fxApp with
  | none => simp [hfx, Prog.Keeps]
  | some fx =>
    cases h : env.fxStop fx w.stopCtx <;> cases hr : w.isRestart <;>
      simp [hfx, h, hr, Prog.Keeps, Prog.returnNext]

/-- A Trigger call leaves a quantity of the world as it was when every link
keeps it. -/
theorem Hook.Trigger_keeps {ε σ β : Type} (f : σ → β) (h : Hook ε σ) (event : ε)
    (oneOff : List (ε → Prog σ)) (w : σ)
    (hall : ∀ l ∈ h.chain event oneOff, l.body.Keeps f (f w)) :
    ∃ out, h.Trigger event oneOff w = some out ∧ f out.state.world = f w := by
  obtain ⟨out1, h1, h2⟩ := Event.Next_keeps f (f w) (h.chain event oneOff).length
    { event := { next := h.chain event oneOff }, world := w, trace := [] } hall rfl le_rfl
  obtain ⟨out0, out, _, h0, ho, hst, _⟩ := Hook.Trigger_run h event oneOff w
  rw [h1] at h0
  cases Option.some.inj h0
  exact ⟨out, ho, by rw [hst]; exact h2⟩

/-- C12: the restart terminal action. With IsRestart false it is return
e.Next(): it only invokes the continuation, on the state as it found it.
With IsRestart true it never invokes the continuation (it ends the same
way whatever the continuation is), it ends with the container reference
and the logger cleared, also when os.Executable fails and no replacement
is attempted, and it returns the error of os.Executable or of syscall.Exec
as an ordinary error; when the replacement succeeds control does not come
back.  The action is not part of a Stop call, and Stop leaves the owned
references as they were when the registered handlers do. -/
theorem c12_restart_action {α : Type} (env : Env) (app : BaseApp α) :
    (∀ (callNext : State (World α) → Option (Outcome (World α))) (st : State (World α)),
      st.world.isRestart = false →
        (app.restart env StopEvent.mk).exec callNext st = callNext st) ∧
    (∀ st : State (World α), st.world.isRestart = true → ∃ out : Outcome (World α),
      (∀ callNext : State (World α) → Option (Outcome (World α)),
        (app.restart env StopEvent.mk).exec callNext st = some out) ∧
      out.state.world.fxApp = none ∧ out.state.world.fxLogger = none ∧
      out.state.event = st.event ∧ out.state.trace = st.trace ∧
      (∀ err, env.osExecutable = .error err →
        out = .returned (some err) { st with world := BaseApp.reset st.world }) ∧
      (∀ path err, env.osExecutable = .ok path → env.sysExec path = some err →
        out = .returned (some err)
          { st with world := { BaseApp.reset st.world with
                               execCalls := st.world.execCalls + 1 } }) ∧
      (∀ path, env.osExecutable = .ok path → env.sysExec path = none →
        out = .halted
          { st with world := { BaseApp.reset st.world with
                               execCalls := st.world.execCalls + 1 } })) ∧
    (∀ (ctx : Context) (w : World α) (out : Outcome (World α)),
      app.Stop env ctx w = some out → LinkTag.oneOff 1 ∉ out.state.trace) ∧
    (∀ (ctx : Context) (w : World α),
      (∀ a ∈ app.onStop.handlers, ∀ v, (a.Func StopEvent.mk).Keeps World.owned v) →
      ∃ out, app.Stop env ctx w = some out ∧ out.state.world.fxApp = w.fxApp ∧
        out.state.world.fxLogger = w.fxLogger) := by
  refine ⟨?_, ?_, ?_, ?_⟩
  · intro callNext st h
    simp only [BaseApp.restart, Prog.exec, h, Bool.not_false, if_true]
    exact Prog.exec_returnNext callNext st
  · intro st h
    obtain ⟨out, h1, h2, h3, h4, h5, _, h7, h8, h9⟩ :=
      BaseApp.restart_commit env app StopEvent.mk st h
    exact ⟨out, h1, h2, h3, h4, h5, h7, h8, h9⟩
  · intro ctx w out ho hmem
    have hsub := Hook.Trigger_trace_subset app.onStop StopEvent.mk [app.stop env] _ out ho
      _ hmem
    rw [tagsOf_chain] at hsub
    rcases List.mem_append.mp hsub with h1 | h1
    · obtain ⟨a, _, ha⟩ := List.mem_map.mp h1
      cases ha
    · simp at h1
  · intro ctx w hkeep
    obtain ⟨out, h1, h2⟩ := Hook.Trigger_keeps World.owned app.onStop StopEvent.mk
      [app.stop env]
      { w with stopCtx := Context.withTimeout ctx app.stopTimeout, isRestart := false }
      (by
        intro l hl
        rcases mem_chain _ _ _ l hl with ⟨a, ha, hb⟩ | ⟨f, hf, hb⟩
        · rw [hb]; exact hkeep a ha _
        · rw [List.mem_singleton] at hf
          subst hf
          rw [hb]
          exact BaseApp.stop_keeps env app _ _ _)
    refine ⟨out, h1, ?_, ?_⟩
    · exact congrArg Prod.fst h2
    · exact congrArg Prod.snd h2

/-- C12, witness: Restart on a started application with no registered
handlers. When the process image is replaced control does not come back;
when os.Executable fails its error is returned and no replacement is
attempted; when syscall.Exec fails its error is returned; each time the
container reference and the logger are cleared. Stop leaves them as they
were. -/
theorem c12_restart_action_witness :
    (plainApp.Restart okEnv Context.background startedWorld).map
      (fun out => (out.result, out.state.trace, out.state.world.fxApp,
        out.state.world.fxLogger, out.state.world.execCalls)) =
      some (none, [LinkTag.oneOff 0, LinkTag.oneOff 1], none, none, 1) ∧
    (plainApp.Restart noExecutableEnv Context.background startedWorld).map
      (fun out => (out.result, out.state.trace, out.state.world.fxApp,
        out.state.world.fxLogger, out.state.world.execCalls)) =
      some (some (some "executable not found"), [LinkTag.oneOff 0, LinkTag.oneOff 1],
        none, none, 0) ∧
    (plainApp.Restart execFailsEnv Context.background startedWorld).map
      (fun out => (out.result, out.state.trace, out.state.world.fxApp,
        out.state.world.fxLogger, out.state.world.execCalls)) =
      some (some (some "exec failed"), [LinkTag.oneOff 0, LinkTag.oneOff 1], none, none, 1) ∧
    (observedApp.Stop okEnv Context.background startedWorld).map
      (fun out => (out.result, out.state.trace, out.state.world.fxApp,
        out.state.world.fxLogger)) =
      some (some none, [LinkTag.handler "h", LinkTag.oneOff 0], startedWorld.fxApp,
        startedWorld.fxLogger) ∧
    (∃ out, observedApp.Stop okEnv Context.background startedWorld = some out ∧
      out.state.world.fxApp = startedWorld.fxApp ∧
      out.state.world.fxLogger = startedWorld.fxLogger) :=
  ⟨by rfl, by rfl, by rfl, by decide,
    (c12_restart_action okEnv observedApp).2.2.2 Context.background
      startedWorld (by
        intro a ha v
        have hh : observedApp.onStop.handlers =
            [{ ID := "h", Priority := 0, Func := fun _ => Prog.returnNext }] := rfl
        rw [hh, List.mem_singleton] at ha
        subst ha
        simp [Prog.Keeps, Prog.returnNext])⟩

end App
